import Mathlib

/-!
Shallow embedding of `minesweeper.py` (classes `Minesweeper`, `Sentence`,
`MinesweeperAI`).  Coordinates are Python integers, embedded as `ℤ`; Python
sets of cells become `Finset (ℤ × ℤ)`; the knowledge base, a Python list,
becomes `List Sentence`.  Python `assert` failures are modelled by the
`Res.assertFail` result; the unbounded `while changed` loop and the
subset-resolution double loop (which in Python iterates over a list that
grows while it is being iterated) are modelled with explicit fuel, with
`Res.fuelOut` marking fuel exhaustion.  Assertion checks are placed before
any fuel consumption, exactly mirroring the order of the Python statements,
so an `assertFail` outcome is independent of the fuel supplied.
-/

/-- A board coordinate `(row, col)`, a Python `(i, j)` tuple. -/
abbrev Cell : Type := ℤ × ℤ

/-- Class `Sentence`: a set of board cells and a count of how many of those
cells are mines (`minesweeper.py`, lines 87-144).  `__eq__` compares the
cell set and the count, which is exactly structural equality here. -/
structure Sentence where
  cells : Finset Cell
  count : ℤ

/-- Decidable value equality for sentences, kept free of proof casts so
that concrete runs reduce inside the kernel. -/
instance : DecidableEq Sentence := fun s t =>
  decidable_of_iff (s.cells = t.cells ∧ s.count = t.count)
    (by cases s; cases t; simp)

/-- `Sentence.known_mines` (lines 104-112): returns `self.cells` when
`len(self.cells) == self.count`, else `None`. -/
def Sentence.known_mines (s : Sentence) : Option (Finset Cell) :=
  if (s.cells.card : ℤ) = s.count then some s.cells else none

/-- `Sentence.known_safes` (lines 114-122): returns `self.cells` when
`self.count == 0`, else `None`. -/
def Sentence.known_safes (s : Sentence) : Option (Finset Cell) :=
  if s.count = 0 then some s.cells else none

/-- `Sentence.mark_mine` (lines 124-132): if the cell is in the sentence,
remove it and decrement the count. -/
def Sentence.mark_mine (s : Sentence) (c : Cell) : Sentence :=
  if c ∈ s.cells then ⟨s.cells.erase c, s.count - 1⟩ else s

/-- `Sentence.mark_safe` (lines 135-144): if the cell is in the sentence,
remove it; the count is unchanged. -/
def Sentence.mark_safe (s : Sentence) (c : Cell) : Sentence :=
  if c ∈ s.cells then ⟨s.cells.erase c, s.count⟩ else s

/-- The state of a `MinesweeperAI` object: the constructor arguments
`height`/`width` and the four mutable fields (lines 152-166). -/
structure Agent where
  height : ℤ
  width : ℤ
  moves_made : Finset Cell
  mines : Finset Cell
  safes : Finset Cell
  knowledge : List Sentence

/-- Decidable equality of agent states, again cast-free. -/
instance : DecidableEq Agent := fun a b =>
  decidable_of_iff (a.height = b.height ∧ a.width = b.width ∧
      a.moves_made = b.moves_made ∧ a.mines = b.mines ∧
      a.safes = b.safes ∧ a.knowledge = b.knowledge)
    (by cases a; cases b; simp)

/-- `MinesweeperAI.__init__(height, width)`: all four fields start empty. -/
def Agent.init (height width : ℤ) : Agent :=
  ⟨height, width, ∅, ∅, ∅, []⟩

/-- `MinesweeperAI.mark_mine` (lines 168-175): add the cell to `mines` and
apply `Sentence.mark_mine` to every sentence in the knowledge base. -/
def Agent.mark_mine (a : Agent) (c : Cell) : Agent :=
  { a with mines := insert c a.mines,
           knowledge := a.knowledge.map (fun s => s.mark_mine c) }

/-- `MinesweeperAI.mark_safe` (lines 177-184): add the cell to `safes` and
apply `Sentence.mark_safe` to every sentence in the knowledge base. -/
def Agent.mark_safe (a : Agent) (c : Cell) : Agent :=
  { a with safes := insert c a.safes,
           knowledge := a.knowledge.map (fun s => s.mark_safe c) }

/-- Lexicographic order on cells, used only to enumerate a Python set in a
deterministic order (Python's set iteration order is unspecified; every
loop below that iterates a set is order-insensitive in its effect). -/
def cellLE (a b : Cell) : Prop := a.1 < b.1 ∨ (a.1 = b.1 ∧ a.2 ≤ b.2)

instance : DecidableRel cellLE := fun a b => by unfold cellLE; infer_instance

instance : IsTrans Cell cellLE := ⟨by intro a b c; unfold cellLE; omega⟩

instance : IsAntisymm Cell cellLE :=
  ⟨by intro a b h1 h2; unfold cellLE at h1 h2; exact Prod.ext (by omega) (by omega)⟩

instance : IsTotal Cell cellLE := ⟨by intro a b; unfold cellLE; omega⟩

/-- Enumerate a finite set of cells as a sorted list.  (Insertion sort is
used rather than `Finset.sort` so that the enumeration reduces inside the
kernel.) -/
def cellList (s : Finset Cell) : List Cell :=
  Quotient.lift (List.insertionSort cellLE)
    (fun l1 l2 h => List.eq_of_perm_of_sorted
      (List.Perm.trans (List.perm_insertionSort cellLE l1)
        (List.Perm.trans (show List.Perm l1 l2 from h)
          (List.Perm.symm (List.perm_insertionSort cellLE l2))))
      (List.sorted_insertionSort cellLE l1) (List.sorted_insertionSort cellLE l2)) s.val

/-- Result of running a modelled Python computation: normal return,
`AssertionError`, or fuel exhaustion of the model. -/
inductive Res (α : Type) where
  | ok : α → Res α
  | assertFail : Res α
  | fuelOut : Res α

instance {α : Type} [DecidableEq α] : DecidableEq (Res α) := fun r1 r2 =>
  match r1, r2 with
  | Res.ok a, Res.ok b => decidable_of_iff (a = b) (by simp)
  | Res.ok _, Res.assertFail => isFalse (fun h => Res.noConfusion h)
  | Res.ok _, Res.fuelOut => isFalse (fun h => Res.noConfusion h)
  | Res.assertFail, Res.ok _ => isFalse (fun h => Res.noConfusion h)
  | Res.assertFail, Res.assertFail => isTrue rfl
  | Res.assertFail, Res.fuelOut => isFalse (fun h => Res.noConfusion h)
  | Res.fuelOut, Res.ok _ => isFalse (fun h => Res.noConfusion h)
  | Res.fuelOut, Res.assertFail => isFalse (fun h => Res.noConfusion h)
  | Res.fuelOut, Res.fuelOut => isTrue rfl

/-- `true` exactly on a normal return. -/
def Res.isOk {α : Type} : Res α → Bool
  | Res.ok _ => true
  | Res.assertFail => false
  | Res.fuelOut => false

/-- Extract the returned value of a normal return, with a default. -/
def Res.getD {α : Type} : Res α → α → α
  | Res.ok a, _ => a
  | Res.assertFail, d => d
  | Res.fuelOut, d => d

/-- The 9 positions scanned by the nested loops
`for _i in range(i-1, i+2): for _j in range(j-1, j+2)` of `add_knowledge`
(lines 223-224), in Python's row-major iteration order.  The cell itself is
kept in the list; the `(_i,_j) == cell` test of line 225 skips it. -/
def neighborCells (c : Cell) : List Cell :=
  [c.1 - 1, c.1, c.1 + 1].flatMap (fun x => [c.2 - 1, c.2, c.2 + 1].map (fun y => (x, y)))

/-- One iteration of the neighbor-enumeration loop of `add_knowledge`
(lines 223-240), operating on the accumulator
(`neighboring_cells`, local `count`).  Checks occur in source order:
skip the cell itself; skip cells in `safes`; cells in `mines` are skipped
with the local count decremented; then the bounds test
`0 <= _i < self.height and 0 <= _j < self.height` (note: the column is
compared against `height`, exactly as in line 236 of the source), inside
which `assert _i != 8` and `assert _j != 8` (lines 237-238) can fail. -/
def scanStep (a : Agent) (cell : Cell) (p : Cell) (acc : Finset Cell × ℤ) :
    Res (Finset Cell × ℤ) :=
  if p = cell then Res.ok acc
  else if p ∈ a.safes then Res.ok acc
  else if p ∈ a.mines then Res.ok (acc.1, acc.2 - 1)
  else if 0 ≤ p.1 ∧ p.1 < a.height ∧ 0 ≤ p.2 ∧ p.2 < a.height then
    if p.1 = 8 then Res.assertFail
    else if p.2 = 8 then Res.assertFail
    else Res.ok (insert p acc.1, acc.2)
  else Res.ok acc

/-- The whole neighbor-enumeration loop: fold `scanStep` over a list of
positions, aborting on an assertion failure. -/
def scanFold (a : Agent) (cell : Cell) : List Cell → Finset Cell × ℤ → Res (Finset Cell × ℤ)
  | [], acc => Res.ok acc
  | p :: ps, acc =>
    match scanStep a cell p acc with
    | Res.ok acc' => scanFold a cell ps acc'
    | Res.assertFail => Res.assertFail
    | Res.fuelOut => Res.fuelOut

/-- The inner loop `for mine in new_mines.copy()` (lines 272-278): mark
each cell of the snapshot not already in `self.mines` as a mine, setting
`changed`. -/
def markMinesLoop : Agent → Bool → List Cell → Agent × Bool
  | st, chg, [] => (st, chg)
  | st, chg, c :: cs =>
    if c ∈ st.mines then markMinesLoop st chg cs
    else markMinesLoop (st.mark_mine c) true cs

/-- The inner loop `for safe in new_safes.copy()` (lines 282-287). -/
def markSafesLoop : Agent → Bool → List Cell → Agent × Bool
  | st, chg, [] => (st, chg)
  | st, chg, c :: cs =>
    if c ∈ st.safes then markSafesLoop st chg cs
    else markSafesLoop (st.mark_safe c) true cs

/-- The body of the deduction loop for one sentence (lines 260-287):
skip sentences with an empty cell set; otherwise snapshot
`known_mines()`/`known_safes()` of the sentence and process them in order.
The asserts of lines 270 and 280 (the returned set must be non-empty)
become `assertFail` branches. -/
def processSentence (st : Agent) (chg : Bool) (s : Sentence) : Res (Agent × Bool) :=
  if s.cells = ∅ then Res.ok (st, chg)
  else
    let step1 : Res (Agent × Bool) :=
      match s.known_mines with
      | none => Res.ok (st, chg)
      | some m =>
        if m = ∅ then Res.assertFail
        else Res.ok (markMinesLoop st chg (cellList m))
    match step1 with
    | Res.ok (st1, chg1) =>
      match s.known_safes with
      | none => Res.ok (st1, chg1)
      | some m =>
        if m = ∅ then Res.assertFail
        else Res.ok (markSafesLoop st1 chg1 (cellList m))
    | Res.assertFail => Res.assertFail
    | Res.fuelOut => Res.fuelOut

/-- The deduction loop `for sentence in self.knowledge` (lines 260-287).
The list's length never changes during this loop (marking only mutates
sentences in place), so the loop is driven by an index `k` with a countdown
`n` fixed at the list's length; at each position the sentence is re-read
from the current state, as Python's in-place mutation does. -/
def dedLoop : Agent → Bool → ℕ → ℕ → Res (Agent × Bool)
  | st, chg, _, 0 => Res.ok (st, chg)
  | st, chg, k, n + 1 =>
    match st.knowledge.get? k with
    | none => Res.ok (st, chg)
    | some s =>
      match processSentence st chg s with
      | Res.ok (st', chg') => dedLoop st' chg' (k + 1) n
      | Res.assertFail => Res.assertFail
      | Res.fuelOut => Res.fuelOut

/-- The whole deduction pass, starting from `changed = False` (line 257). -/
def deduction (st : Agent) : Res (Agent × Bool) :=
  dedLoop st false 0 st.knowledge.length

/-- The subset-resolution double loop (lines 289-313):
`for sentence_1 in self.knowledge: for sentence_2 in self.knowledge:`.
Python list iterators are positional and see elements appended during
iteration, so the loop is modelled with positions `i`, `j` into the current
(growing) knowledge list.  Checks occur in source order: `continue` on
equal sentences (`__eq__`, i.e. value equality), `continue` if either cell
set is empty (which also makes the asserts of lines 297-298 unreachable),
then the subset test; the derived sentence is appended only if not already
present by value (line 306), and the assert of line 307 (the new sentence's
cell set must be non-empty) fails before the append.  One unit of fuel is
consumed per loop iteration; the loop's exit test is checked before the
fuel, so a finished pass returns `ok` however little fuel remains. -/
def subsetPass (fuel : ℕ) (st : Agent) (chg : Bool) (i j : ℕ) : Res (Agent × Bool × ℕ) :=
  if hi : i < st.knowledge.length then
    match fuel with
    | 0 => Res.fuelOut
    | f + 1 =>
      if hj : j < st.knowledge.length then
        let s1 := st.knowledge.get ⟨i, hi⟩
        let s2 := st.knowledge.get ⟨j, hj⟩
        if s1 = s2 then subsetPass f st chg i (j + 1)
        else if s1.cells = ∅ ∨ s2.cells = ∅ then subsetPass f st chg i (j + 1)
        else if s1.cells ⊆ s2.cells then
          let cand : Sentence := ⟨s2.cells \ s1.cells, s2.count - s1.count⟩
          if cand ∈ st.knowledge then subsetPass f st chg i (j + 1)
          else if cand.cells = ∅ then Res.assertFail
          else subsetPass f { st with knowledge := st.knowledge ++ [cand] } true i (j + 1)
        else subsetPass f st chg i (j + 1)
      else subsetPass f st chg (i + 1) 0
  else Res.ok (st, chg, fuel)

/-- Line 316-317: drop every sentence equal to `Sentence(set(), 0)`. -/
def removeEmpties (st : Agent) : Agent :=
  { st with knowledge := st.knowledge.filter (fun s => s ≠ ⟨∅, 0⟩) }

/-- One iteration of the `while changed` loop (lines 254-317): reset
`changed`, run the deduction loop, run the subset-resolution double loop,
then remove empty zero-count sentences.  Returns the new state, the final
`changed` flag, and the remaining append fuel. -/
def sweep (fuel : ℕ) (st : Agent) : Res (Agent × Bool × ℕ) :=
  match deduction st with
  | Res.ok (st1, chg1) =>
    match subsetPass fuel st1 chg1 0 0 with
    | Res.ok (st2, chg2, f') => Res.ok (removeEmpties st2, chg2, f')
    | Res.assertFail => Res.assertFail
    | Res.fuelOut => Res.fuelOut
  | Res.assertFail => Res.assertFail
  | Res.fuelOut => Res.fuelOut

/-- The `while changed` loop (lines 251-317), with `changed` initially
true.  Each iteration consumes one unit of fuel and hands the rest to the
sweep as append budget. -/
def closureLoop : ℕ → Agent → Res Agent
  | 0, _ => Res.fuelOut
  | f + 1, st =>
    match sweep f st with
    | Res.ok (st', chg, _) => if chg then closureLoop f st' else Res.ok st'
    | Res.assertFail => Res.assertFail
    | Res.fuelOut => Res.fuelOut

/-- `MinesweeperAI.add_knowledge(cell, count)` (lines 186-331):
add the cell to `moves_made`, mark it safe, enumerate the undetermined
in-bounds neighbors (mutating the local count), append the new sentence if
the neighbor set is non-empty, and run the closure loop. -/
def add_knowledge (fuel : ℕ) (st : Agent) (cell : Cell) (count : ℤ) : Res Agent :=
  let st1 := { st with moves_made := insert cell st.moves_made }
  let st2 := st1.mark_safe cell
  match scanFold st2 cell (neighborCells cell) (∅, count) with
  | Res.ok (nbrs, cnt) =>
    let st3 :=
      if nbrs ≠ ∅ then { st2 with knowledge := st2.knowledge ++ [Sentence.mk nbrs cnt] }
      else st2
    closureLoop fuel st3
  | Res.assertFail => Res.assertFail
  | Res.fuelOut => Res.fuelOut

/-- `MinesweeperAI.make_safe_move` (lines 334-355).  `random.choice` over
`list(safes)` is modelled by an injected index `k`, reduced modulo the list
length (the spec treats the randomness as a substitutable dependency).  The
method reads but never writes agent state; the returned pair makes that
explicit. -/
def make_safe_move (st : Agent) (k : ℕ) : Option Cell × Agent :=
  let sf := cellList (st.safes \ st.moves_made)
  if h : sf = [] then (none, st)
  else
    (some (sf.get ⟨k % sf.length, Nat.mod_lt k (List.length_pos.mpr h)⟩), st)

/-- `Minesweeper.nearby_mines` (lines 55-78): the number of mines within
one row and column of `cell`, the cell itself excluded; here the bounds
test (line 74) correctly uses `width` for the column.  The board is the
set of mined cells. -/
def nearby_mines (height width : ℤ) (board : Finset Cell) (cell : Cell) : ℕ :=
  ((neighborCells cell).filter (fun p =>
    p ≠ cell ∧ 0 ≤ p.1 ∧ p.1 < height ∧ 0 ≤ p.2 ∧ p.2 < width ∧ p ∈ board)).length

/-- `add_knowledge` returns normally for some fuel: the fuel-model rendering
of "the call terminates and returns". -/
def Returns (st : Agent) (cell : Cell) (count : ℤ) : Prop :=
  ∃ (f : ℕ) (st' : Agent), add_knowledge f st cell count = Res.ok st'

/-- `M` satisfies a knowledge base when every sentence is true of `M` read
as the set of mined cells: exactly `count` of its `cells` lie in `M`. -/
def Sat (M : Finset Cell) (kb : List Sentence) : Prop :=
  ∀ s ∈ kb, ((s.cells ∩ M).card : ℤ) = s.count

/-- The mine set of a concrete 2-row, 3-column board whose only mine is at
`(0, 2)`. -/
def board23 : Finset Cell := {((0 : ℤ), (2 : ℤ))}

/-- The state after revealing `(1,1)` (true count 1 on `board23`) on a
fresh 2-by-3 agent. -/
def seqState1 : Agent :=
  ⟨2, 3, {(1, 1)}, ∅, {(1, 1)}, [⟨{(0, 0), (0, 1), (1, 0)}, 1⟩]⟩

/-- The state after then revealing `(0,1)` (true count 1). -/
def seqState2 : Agent :=
  ⟨2, 3, {(0, 1), (1, 1)}, ∅, {(0, 1), (1, 1)},
    [⟨{(0, 0), (1, 0)}, 1⟩, ⟨{(0, 0), (1, 0)}, 1⟩]⟩

/-- The state after then revealing `(0,0)` (true count 0): the truly safe
cell `(1,0)` has been marked a mine and the empty sentence of count `-1`
remains in the knowledge base. -/
def seqState3 : Agent :=
  ⟨2, 3, {(0, 0), (0, 1), (1, 1)}, {(1, 0)}, {(0, 0), (0, 1), (1, 1)}, [⟨∅, -1⟩]⟩

/-- The state after then revealing the truly safe `(1,0)` (true count 0):
`(1,0)` is now in both `safes` and `mines`. -/
def seqState4 : Agent :=
  ⟨2, 3, {(0, 0), (0, 1), (1, 0), (1, 1)}, {(1, 0)},
    {(0, 0), (0, 1), (1, 0), (1, 1)}, [⟨∅, -1⟩]⟩

/-- The state after revealing `(0,0)` with count 1 on a fresh 2-by-2
agent. -/
def twiceState1 : Agent :=
  ⟨2, 2, {(0, 0)}, ∅, {(0, 0)}, [⟨{(0, 1), (1, 0), (1, 1)}, 1⟩]⟩

/-- The state after repeating the identical call: the knowledge base now
holds two equal sentences. -/
def twiceState2 : Agent :=
  ⟨2, 2, {(0, 0)}, ∅, {(0, 0)},
    [⟨{(0, 1), (1, 0), (1, 1)}, 1⟩, ⟨{(0, 1), (1, 0), (1, 1)}, 1⟩]⟩

/-- The state of `chainState` after one sweep of its closure loop: the
sentence `{C} = 0` has been derived and appended. -/
def chainMid : Agent :=
  ⟨1, 3, ∅, ∅, ∅,
    [⟨{(0, 0), (0, 1), (0, 2)}, 1⟩, ⟨{(0, 0), (0, 1)}, 1⟩, ⟨{((0 : ℤ), (2 : ℤ))}, 0⟩]⟩

/-- The final state of the closure loop on `chainState`: `C = (0,2)` is
known safe. -/
def chainFinal : Agent :=
  ⟨1, 3, ∅, ∅, {((0 : ℤ), (2 : ℤ))}, [⟨{(0, 0), (0, 1)}, 1⟩, ⟨{(0, 0), (0, 1)}, 1⟩]⟩

/-- Knowledge base holding the sentences of the spec's resolution example:
`{A,B,C} = 1` and `{A,B} = 1` with `A = (0,0)`, `B = (0,1)`, `C = (0,2)`. -/
def chainState : Agent :=
  ⟨1, 3, ∅, ∅, ∅, [⟨{(0, 0), (0, 1), (0, 2)}, 1⟩, ⟨{(0, 0), (0, 1)}, 1⟩]⟩

/-- A state holding two sentences with equal cell sets and different
counts; its safes cover both cells so that the deduction pass is inert. -/
def contraState : Agent :=
  ⟨2, 2, ∅, ∅, {(0, 0), (0, 1)}, [⟨{(0, 0), (0, 1)}, 0⟩, ⟨{(0, 0), (0, 1)}, 1⟩]⟩

/-- Like `contraState` but with the whole neighborhood of `(1,1)` already
safe, so that revealing `(1,1)` adds no new sentence. -/
def blockedState : Agent :=
  ⟨2, 2, ∅, ∅, {(0, 0), (0, 1), (1, 0)}, [⟨{(0, 0), (0, 1)}, 0⟩, ⟨{(0, 0), (0, 1)}, 1⟩]⟩

/-- The state reached by `add_knowledge` on `blockedState` with cell
`(1,1)` just before its closure loop starts (steps 1 and 2 applied; the
neighbor scan then finds no undetermined cell, so no sentence is added). -/
def blockedMid : Agent :=
  Agent.mark_safe
    { blockedState with moves_made := insert ((1 : ℤ), (1 : ℤ)) blockedState.moves_made }
    ((1 : ℤ), (1 : ℤ))

/-- A knowledge base in which the pair (index 0, index 1) derives the
candidate `({(0,1)}, 0)`, which is already present at index 2. -/
def subsetWitState : Agent :=
  ⟨2, 2, ∅, ∅, ∅,
    [⟨{((0 : ℤ), (0 : ℤ))}, 1⟩, ⟨{(0, 0), (0, 1)}, 1⟩, ⟨{((0 : ℤ), (1 : ℤ))}, 0⟩]⟩

/-- A satisfiable knowledge base (mine set `{(0,0)}` satisfies it), used
to witness the closure-termination theorem. -/
def satState : Agent :=
  ⟨2, 2, ∅, ∅, ∅, [⟨{(0, 0), (0, 1)}, 1⟩, ⟨{((0 : ℤ), (0 : ℤ))}, 1⟩]⟩

/-- Agent state used to witness `make_safe_move`: one safe move left. -/
def moveState : Agent :=
  ⟨2, 2, {((0 : ℤ), (0 : ℤ))}, ∅, {(0, 0), (1, 1)}, []⟩

/-- The union of the cell sets of a knowledge base. -/
def kbCells (kb : List Sentence) : Finset Cell :=
  kb.foldr (fun s acc => s.cells ∪ acc) ∅

/-- Invariant carried through the closure loop: every sentence is true of
the mine set `M` and its cells lie inside the fixed universe `W`. -/
def KBInv (M W : Finset Cell) (st : Agent) : Prop :=
  ∀ s ∈ st.knowledge, ((s.cells ∩ M).card : ℤ) = s.count ∧ s.cells ⊆ W

/-- The finite universe of sentence values with non-empty cell sets drawn
from `W` and counts between 0 and the size of the cell set.  Every
sentence the closure loop can append under `Inv` has its value here. -/
def UB (W : Finset Cell) : Finset Sentence :=
  W.powerset.biUnion (fun V => (Finset.range (V.card + 1)).image (fun c : ℕ => Sentence.mk V (c : ℤ)))

/-- The distinct sentence values with non-empty cells currently in the
knowledge base. -/
def neVals (st : Agent) : Finset Sentence :=
  (st.knowledge.filter (fun s => s.cells ≠ ∅)).toFinset

/-- Cells of `W` not yet marked: strictly decreases on every new mark. -/
def markMeasure (W : Finset Cell) (st : Agent) : ℕ :=
  (W \ st.mines).card + (W \ st.safes).card

/-- Combined termination measure for the closure loop: a changed sweep
either marks a new cell (first summand drops, second is bounded by
`(UB W).card`) or appends a new sentence value (second summand drops). -/
def rank (W : Finset Cell) (st : Agent) : ℕ :=
  markMeasure W st * ((UB W).card + 1) + ((UB W).card - (neVals st).card)

/-- An upper bound on the length the knowledge list can reach during one
subset pass under `KBInv`: every append adds a sentence value from `UB W`
that is not yet present. -/
def lenBound (W : Finset Cell) (st : Agent) : ℕ :=
  st.knowledge.length + ((UB W).card - (neVals st).card)

/-- Step potential of the subset pass at position `(i, j)`: strictly
decreases on every iteration, so it bounds the fuel the pass consumes. -/
def phi (W : Finset Cell) (st : Agent) (i j : ℕ) : ℕ :=
  (lenBound W st - i) * (lenBound W st + 1) + (lenBound W st - j)

/-! ## Theorems -/

/-- Claim C1 (code_bug evaluation): the spec requires the new sentence of
`add_knowledge` to contain exactly the in-bounds (`0 ≤ row < height`,
`0 ≤ col < width`) neighbors that are neither safe nor mines, but line 236
of the source compares the column index against `height` instead of
`width`.  On a fresh 2-by-3 agent, revealing `(1,1)` with its true count 1
produces a sentence that omits the undetermined in-bounds neighbor
`(0,2)`. -/
theorem C1_neighbor_bounds_bug_evaluation :
    add_knowledge 99 (Agent.init 2 3) (1, 1) 1 = Res.ok seqState1 ∧
    seqState1.knowledge = [Sentence.mk {(0, 0), (0, 1), (1, 0)} 1] ∧
    (0 ≤ (0 : ℤ) ∧ (0 : ℤ) < (Agent.init 2 3).height ∧
      0 ≤ (2 : ℤ) ∧ (2 : ℤ) < (Agent.init 2 3).width) ∧
    ((0 : ℤ), (2 : ℤ)) ∉ seqState1.safes ∧
    ((0 : ℤ), (2 : ℤ)) ∉ seqState1.mines ∧
    (∀ s ∈ seqState1.knowledge, ((0 : ℤ), (2 : ℤ)) ∉ s.cells) ∧
    nearby_mines 2 3 board23 (1, 1) = 1 := by decide

/-- Claim C3 (counterexample): on the empty constraint with count 0, both
`known_mines` and `known_safes` return the empty set (a set, not the
"none known" result), contradicting the claim that every case other than
the two productive ones yields "none known". -/
theorem C3_known_queries_cex :
    (Sentence.mk ∅ 0).known_mines = some ∅ ∧
    (Sentence.mk ∅ 0).known_safes = some ∅ := by decide

/-- Claim C3 (amended): `known_mines` returns `cells` exactly when
`|cells| = count` (including the empty sentence with count 0), otherwise
none; `known_safes` returns `cells` exactly when `count = 0` (again
including the empty sentence), otherwise none.  In particular the claim's
two positive cases hold, and the only deviation from the claim is the
empty constraint with count 0, where both queries return the empty set. -/
theorem C3_known_queries_amended (s : Sentence) :
    ((s.cells.card : ℤ) = s.count → s.known_mines = some s.cells) ∧
    (s.count = 0 → s.known_safes = some s.cells) ∧
    ((s.cells.card : ℤ) ≠ s.count → s.known_mines = none) ∧
    (s.count ≠ 0 → s.known_safes = none) := by
  unfold Sentence.known_mines Sentence.known_safes
  refine ⟨?_, ?_, ?_, ?_⟩ <;> intro h <;> simp [h]

/-- Witness for `C3_known_queries_amended` at concrete sentences. -/
theorem C3_known_queries_witness :
    (Sentence.mk {((0 : ℤ), (0 : ℤ))} 1).known_mines = some {((0 : ℤ), (0 : ℤ))} ∧
    (Sentence.mk {((0 : ℤ), (0 : ℤ))} 2).known_mines = none :=
  ⟨(C3_known_queries_amended (Sentence.mk {((0 : ℤ), (0 : ℤ))} 1)).1 (by decide),
   (C3_known_queries_amended (Sentence.mk {((0 : ℤ), (0 : ℤ))} 2)).2.2.1 (by decide)⟩

set_option maxRecDepth 8000 in
set_option maxHeartbeats 1000000 in
/-- Claim C4 (code_bug evaluation): on the 2-by-3 board `board23`, the
four revealed cells are non-mines and the counts supplied are their true
neighbor mine counts, yet after the fourth call the cell `(1,0)` is in
both `safes` and `mines`: the sets are not disjoint.  (The column-bound
slip of line 236 lets the third call wrongly infer `(1,0)` as a mine;
revealing the truly safe `(1,0)` then also marks it safe.) -/
theorem C4_disjointness_bug_evaluation :
    nearby_mines 2 3 board23 (1, 1) = 1 ∧
    nearby_mines 2 3 board23 (0, 1) = 1 ∧
    nearby_mines 2 3 board23 (0, 0) = 0 ∧
    nearby_mines 2 3 board23 (1, 0) = 0 ∧
    ((1 : ℤ), (1 : ℤ)) ∉ board23 ∧ ((0 : ℤ), (1 : ℤ)) ∉ board23 ∧
    ((0 : ℤ), (0 : ℤ)) ∉ board23 ∧ ((1 : ℤ), (0 : ℤ)) ∉ board23 ∧
    add_knowledge 99 (Agent.init 2 3) (1, 1) 1 = Res.ok seqState1 ∧
    add_knowledge 99 seqState1 (0, 1) 1 = Res.ok seqState2 ∧
    add_knowledge 99 seqState2 (0, 0) 0 = Res.ok seqState3 ∧
    add_knowledge 99 seqState3 (1, 0) 0 = Res.ok seqState4 ∧
    ((1 : ℤ), (0 : ℤ)) ∈ seqState4.safes ∧
    ((1 : ℤ), (0 : ℤ)) ∈ seqState4.mines := by decide

/-- Claim C6 (counterexample): repeating `add_knowledge((0,0), 1)` on a
fresh 2-by-2 agent appends a second sentence equal (same cell set, same
count) to the one already present: step 3 performs no duplicate check. -/
theorem C6_duplicate_sentence_cex :
    add_knowledge 99 (Agent.init 2 2) (0, 0) 1 = Res.ok twiceState1 ∧
    add_knowledge 99 twiceState1 (0, 0) 1 = Res.ok twiceState2 ∧
    twiceState1.knowledge = [Sentence.mk {(0, 1), (1, 0), (1, 1)} 1] ∧
    twiceState2.knowledge =
      [Sentence.mk {(0, 1), (1, 0), (1, 1)} 1,
       Sentence.mk {(0, 1), (1, 0), (1, 1)} 1] := by decide

/-- Claim C6 (amended): a repeated `add_knowledge` call is not
duplicate-free.  In general — for every agent state, cell, count and
fuel — whenever the neighbor scan of step 3 yields a non-empty rebuilt
constraint, the append of line 245 happens with no membership check: the
call runs its closure loop on the state whose knowledge is the old list
with the rebuilt sentence appended, and if that sentence's value was
already present the list entering the closure holds it at least twice.
Concretely, repeating `add_knowledge((0,0), 1)` on the processed state
`twiceState1` leaves `moves_made`, `mines` and `safes` unchanged but
returns with the constraint `{(0,1),(1,0),(1,1)} = 1` present twice (the
line-306 membership check guards only subset-resolution appends, and line
317 removes only empty zero-count constraints). -/
theorem C6_repeat_call_amended :
    (∀ (fuel : ℕ) (st : Agent) (cell : Cell) (count : ℤ) (nbrs : Finset Cell) (cnt : ℤ),
        scanFold (Agent.mark_safe { st with moves_made := insert cell st.moves_made } cell)
            cell (neighborCells cell) (∅, count) = Res.ok (nbrs, cnt) →
        nbrs ≠ ∅ →
        (add_knowledge fuel st cell count =
            closureLoop fuel
              { Agent.mark_safe { st with moves_made := insert cell st.moves_made } cell with
                knowledge :=
                  (Agent.mark_safe { st with
                      moves_made := insert cell st.moves_made } cell).knowledge
                    ++ [Sentence.mk nbrs cnt] }) ∧
        (Sentence.mk nbrs cnt ∈
            (Agent.mark_safe { st with moves_made := insert cell st.moves_made } cell).knowledge →
          2 ≤ List.count (Sentence.mk nbrs cnt)
              ((Agent.mark_safe { st with
                  moves_made := insert cell st.moves_made } cell).knowledge
                ++ [Sentence.mk nbrs cnt]))) ∧
    add_knowledge 99 twiceState1 ((0 : ℤ), (0 : ℤ)) 1 = Res.ok twiceState2 ∧
    twiceState2.moves_made = twiceState1.moves_made ∧
    twiceState2.mines = twiceState1.mines ∧
    twiceState2.safes = twiceState1.safes ∧
    List.count (Sentence.mk {(0, 1), (1, 0), (1, 1)} 1) twiceState2.knowledge = 2 := by
  constructor
  · intro fuel st cell count nbrs cnt hscan hne
    constructor
    · dsimp only [add_knowledge]
      rw [hscan]
      dsimp only []
      rw [if_pos hne]
    · intro hmem
      rw [List.count_append]
      have h1 : 0 < List.count (Sentence.mk nbrs cnt)
          (Agent.mark_safe { st with
            moves_made := insert cell st.moves_made } cell).knowledge :=
        List.count_pos_iff.mpr hmem
      have h2 : List.count (Sentence.mk nbrs cnt) [Sentence.mk nbrs cnt] = 1 := by
        simp [List.count_cons]
      omega
  · exact ⟨by decide, by decide, by decide, by decide, by decide⟩

/-- Witness for the general part of `C6_repeat_call_amended`: on the
processed state `twiceState1` the repeated call's scan rebuilds the
already-present sentence `{(0,1),(1,0),(1,1)} = 1`, and the list entering
the closure loop holds it twice. -/
theorem C6_repeat_call_witness :
    2 ≤ List.count (Sentence.mk {((0 : ℤ), (1 : ℤ)), (1, 0), (1, 1)} 1)
        ((Agent.mark_safe { twiceState1 with
            moves_made := insert ((0 : ℤ), (0 : ℤ)) twiceState1.moves_made }
            ((0 : ℤ), (0 : ℤ))).knowledge
          ++ [Sentence.mk {((0 : ℤ), (1 : ℤ)), (1, 0), (1, 1)} 1]) :=
  (C6_repeat_call_amended.1 99 twiceState1 ((0 : ℤ), (0 : ℤ)) 1
      {((0 : ℤ), (1 : ℤ)), (1, 0), (1, 1)} 1 (by decide) (by decide)).2 (by decide)

set_option maxRecDepth 8000 in
set_option maxHeartbeats 1000000 in
/-- Claim C7 (code_bug evaluation): after the third call of the same
true-count sequence on `board23`, the knowledge base contains the sentence
with empty cell set and count `-1`, violating `0 ≤ count ≤ |cells|` (the
bogus sentence created by the line-236 column bound led `mark_mine` to
decrement a zero count). -/
theorem C7_count_invariant_bug_evaluation :
    nearby_mines 2 3 board23 (1, 1) = 1 ∧
    nearby_mines 2 3 board23 (0, 1) = 1 ∧
    nearby_mines 2 3 board23 (0, 0) = 0 ∧
    add_knowledge 99 (Agent.init 2 3) (1, 1) 1 = Res.ok seqState1 ∧
    add_knowledge 99 seqState1 (0, 1) 1 = Res.ok seqState2 ∧
    add_knowledge 99 seqState2 (0, 0) 0 = Res.ok seqState3 ∧
    Sentence.mk ∅ (-1) ∈ seqState3.knowledge ∧
    (Sentence.mk ∅ (-1)).count < 0 := by decide

set_option maxRecDepth 8000 in
set_option maxHeartbeats 1000000 in
/-- Claim C8 (counterexample): the third call of the true-count sequence
returns with the empty-celled sentence of count `-1` still in the
knowledge base — only sentences equal to `Sentence(set(), 0)` are removed
at line 316, so a constraint whose cells became empty with a nonzero count
is not retired. -/
theorem C8_empty_retirement_cex :
    add_knowledge 99 seqState2 (0, 0) 0 = Res.ok seqState3 ∧
    Sentence.mk ∅ (-1) ∈ seqState3.knowledge ∧
    (Sentence.mk ∅ (-1)).cells = ∅ ∧ (Sentence.mk ∅ (-1)).count ≠ 0 := by decide

/-- Membership in the sorted enumeration agrees with set membership. -/
theorem mem_cellList {a : Cell} {s : Finset Cell} : a ∈ cellList s ↔ a ∈ s := by
  rw [Finset.mem_def]
  unfold cellList
  induction s.val using Quotient.inductionOn with
  | h l =>
    simp only [Quotient.lift_mk, Multiset.quot_mk_to_coe, Multiset.mem_coe]
    exact (List.perm_insertionSort cellLE l).mem_iff

/-- Claim C9: `make_safe_move` returns a member of `safes − moves_made`
when that set is non-empty, returns the "no value" result when it is
empty, and leaves the agent state unchanged in both cases. -/
theorem C9_make_safe_move_correct (st : Agent) (k : ℕ) :
    (make_safe_move st k).2 = st ∧
    (st.safes \ st.moves_made ≠ ∅ →
      ∃ c : Cell, (make_safe_move st k).1 = some c ∧
        c ∈ st.safes ∧ c ∉ st.moves_made) ∧
    (st.safes \ st.moves_made = ∅ → (make_safe_move st k).1 = none) := by
  refine ⟨?_, ?_, ?_⟩
  · unfold make_safe_move
    by_cases h : cellList (st.safes \ st.moves_made) = [] <;> simp [h]
  · intro hne
    have h : cellList (st.safes \ st.moves_made) ≠ [] := by
      intro h0
      apply hne
      rw [Finset.eq_empty_iff_forall_not_mem]
      intro x hx
      have hx2 : x ∈ cellList (st.safes \ st.moves_made) := mem_cellList.mpr hx
      rw [h0] at hx2
      exact List.not_mem_nil x hx2
    have hmem := mem_cellList.mp
      (List.get_mem (cellList (st.safes \ st.moves_made))
        (k % (cellList (st.safes \ st.moves_made)).length)
        (Nat.mod_lt k (List.length_pos.mpr h)))
    refine ⟨(cellList (st.safes \ st.moves_made)).get
        ⟨k % (cellList (st.safes \ st.moves_made)).length,
          Nat.mod_lt k (List.length_pos.mpr h)⟩, ?_, ?_, ?_⟩
    · unfold make_safe_move
      simp only [dif_neg h]
    · exact (Finset.mem_sdiff.mp hmem).1
    · exact (Finset.mem_sdiff.mp hmem).2
  · intro he
    have h : cellList (st.safes \ st.moves_made) = [] := by rw [he]; rfl
    unfold make_safe_move
    simp only [h, dif_pos]

/-- Witness for `C9_make_safe_move_correct` on `moveState` (where
`safes − moves_made = {(1,1)}`) and on the fresh agent (empty set). -/
theorem C9_make_safe_move_witness :
    ((make_safe_move moveState 3).2 = moveState ∧
      ∃ c : Cell, (make_safe_move moveState 3).1 = some c ∧
        c ∈ moveState.safes ∧ c ∉ moveState.moves_made) ∧
    (make_safe_move (Agent.init 2 2) 0).1 = none :=
  ⟨⟨(C9_make_safe_move_correct moveState 3).1,
    (C9_make_safe_move_correct moveState 3).2.1 (by decide)⟩,
   (C9_make_safe_move_correct (Agent.init 2 2) 0).2.2 (by decide)⟩

/-- The two `assert`s of lines 237-238 cannot fire when the agent's height
is at most 8: the (buggy) bounds test gives `p.1 < height` and
`p.2 < height`, so neither index can equal 8. -/
theorem scanStep_no_assertFail (a : Agent) (cell p : Cell) (acc : Finset Cell × ℤ)
    (hh : a.height ≤ 8) : scanStep a cell p acc ≠ Res.assertFail := by
  unfold scanStep
  split_ifs with h1 h2 h3 h4 h5 h6 <;> simp
  · exact absurd h5 (by obtain ⟨w1, w2, w3, w4⟩ := h4; omega)
  · exact absurd h6 (by obtain ⟨w1, w2, w3, w4⟩ := h4; omega)

/-- The whole neighbor scan never hits an assertion failure when the
height is at most 8. -/
theorem scanFold_no_assertFail (a : Agent) (cell : Cell) (hh : a.height ≤ 8) :
    ∀ (l : List Cell) (acc : Finset Cell × ℤ),
      scanFold a cell l acc ≠ Res.assertFail := by
  intro l
  induction l with
  | nil => intro acc; simp [scanFold]
  | cons p ps ih =>
    intro acc
    cases hs : scanStep a cell p acc with
    | ok acc2 =>
      have hi := ih acc2
      simp only [scanFold, hs]
      exact hi
    | assertFail => exact absurd hs (scanStep_no_assertFail a cell p acc hh)
    | fuelOut => simp [scanFold, hs]

/-- Claim C10: for every agent with `height ≤ 8` and `width ≤ 8`, the
hardcoded `assert _i != 8` / `assert _j != 8` of `add_knowledge` cannot
fail on any call (the neighbor scan never returns an assertion failure);
and the bound is tight in the claim's sense: on a 10-by-10 agent, calling
`add_knowledge` on the in-bounds cell `(8,8)` with a legitimate count
raises an assertion failure (independently of fuel, which is not consumed
before the scan). -/
theorem C10_assert_unreachable_and_tight :
    (∀ (ag : Agent) (cell : Cell) (count : ℤ),
        ag.height ≤ 8 → ag.width ≤ 8 →
        scanFold ag cell (neighborCells cell) (∅, count) ≠ Res.assertFail) ∧
    add_knowledge 0 (Agent.init 10 10) (8, 8) 0 = Res.assertFail := by
  constructor
  · intro ag cell count hh _
    exact scanFold_no_assertFail ag cell hh (neighborCells cell) (∅, count)
  · decide

/-- Witness for `C10_assert_unreachable_and_tight` at an 8-by-8 agent. -/
theorem C10_assert_unreachable_witness :
    scanFold (Agent.init 8 8) ((0 : ℤ), (0 : ℤ))
      (neighborCells ((0 : ℤ), (0 : ℤ))) (∅, 0) ≠ Res.assertFail :=
  C10_assert_unreachable_and_tight.1 (Agent.init 8 8) ((0 : ℤ), (0 : ℤ)) 0
    (by decide) (by decide)

/-- Line 316-317 in isolation: after `removeEmpties` no sentence equal to
the empty zero-count sentence remains. -/
theorem removeEmpties_no_empty_zero (st : Agent) :
    Sentence.mk ∅ 0 ∉ (removeEmpties st).knowledge := by
  intro hmem
  simp only [removeEmpties, List.mem_filter, decide_eq_true_eq] at hmem
  exact hmem.2 rfl

/-- Every sweep ends with the empty-sentence filter, so a sweep that
returns normally returns a state without the empty zero-count sentence. -/
theorem sweep_no_empty_zero {f : ℕ} {st st2 : Agent} {chg : Bool} {f2 : ℕ}
    (h : sweep f st = Res.ok (st2, chg, f2)) :
    Sentence.mk ∅ 0 ∉ st2.knowledge := by
  unfold sweep at h
  split at h
  · split at h
    · simp only [Res.ok.injEq, Prod.mk.injEq] at h
      obtain ⟨h1, h2, h3⟩ := h
      subst h1
      exact removeEmpties_no_empty_zero _
    · exact Res.noConfusion h
    · exact Res.noConfusion h
  · exact Res.noConfusion h
  · exact Res.noConfusion h

/-- A closure loop that returns normally returns a state without the
empty zero-count sentence. -/
theorem closureLoop_no_empty_zero :
    ∀ (f : ℕ) (st st2 : Agent), closureLoop f st = Res.ok st2 →
      Sentence.mk ∅ 0 ∉ st2.knowledge := by
  intro f
  induction f with
  | zero => intro st st2 h; exact Res.noConfusion h
  | succ f ih =>
    intro st st2 h
    unfold closureLoop at h
    cases hs : sweep f st with
    | ok p =>
      rw [hs] at h
      obtain ⟨st1, chg, f1⟩ := p
      cases chg with
      | true =>
        simp only [if_true] at h
        exact ih st1 st2 h
      | false =>
        simp only [Bool.false_eq_true, if_false, Res.ok.injEq] at h
        subst h
        exact sweep_no_empty_zero hs
    | assertFail => rw [hs] at h; exact Res.noConfusion h
    | fuelOut => rw [hs] at h; exact Res.noConfusion h

/-- Claim C8 (amended): whenever `add_knowledge` returns, the knowledge
base contains no constraint equal to the empty constraint with count 0
(that is exactly what line 316-317 retires); empty constraints with a
nonzero count are not retired and can survive, as the counterexample
shows. -/
theorem C8_empty_retirement_amended (f : ℕ) (st : Agent) (cell : Cell) (count : ℤ)
    (stOut : Agent) (h : add_knowledge f st cell count = Res.ok stOut) :
    Sentence.mk ∅ 0 ∉ stOut.knowledge := by
  unfold add_knowledge at h
  dsimp only [] at h
  split at h
  · exact closureLoop_no_empty_zero f _ stOut h
  · exact Res.noConfusion h
  · exact Res.noConfusion h

/-- Witness for `C8_empty_retirement_amended` on the concrete first call
of the 2-by-2 repeat example. -/
theorem C8_empty_retirement_witness :
    Sentence.mk ∅ 0 ∉ twiceState1.knowledge :=
  C8_empty_retirement_amended 99 (Agent.init 2 2) (0, 0) 1 twiceState1 (by decide)

/-- Claim C2 (counterexample): on `contraState` the pair (index 0, index
1) consists of distinct sentences with equal non-empty cell sets, so the
candidate is the empty-celled sentence of count 1, which is not present in
the knowledge base; the claim then demands that it be appended, but the
code instead fails the line-307 assertion, aborting the closure pass. -/
theorem C2_subset_resolution_cex :
    Sentence.mk ∅ 1 ∉ contraState.knowledge ∧
    contraState.knowledge.get? 0 ≠ contraState.knowledge.get? 1 ∧
    subsetPass 99 contraState false 0 0 = Res.assertFail ∧
    closureLoop 99 contraState = Res.assertFail := by decide

/-- Claim C2 (amended): for every ordered pair of distinct constraints
with non-empty cell sets where the first is a subset of the second, the
subset-resolution step derives the candidate `(B.cells − A.cells,
B.count − A.count)` and appends it exactly when it is not already present
by value — provided the candidate's cell set is non-empty (i.e. the two
cell sets differ; when they are equal and the candidate is new, the code
raises an assertion failure instead, as the counterexample shows).  The
spec's example holds: from `{A,B,C} = 1` and `{A,B} = 1` the first sweep
derives `{C} = 0`, and the closure loop ends with `C = (0,2)` known
safe. -/
theorem C2_subset_resolution_amended :
    (∀ (f : ℕ) (st : Agent) (chg : Bool) (i j : ℕ)
        (hi : i < st.knowledge.length) (hj : j < st.knowledge.length),
        st.knowledge.get ⟨i, hi⟩ ≠ st.knowledge.get ⟨j, hj⟩ →
        (st.knowledge.get ⟨i, hi⟩).cells ≠ ∅ →
        (st.knowledge.get ⟨j, hj⟩).cells ≠ ∅ →
        (st.knowledge.get ⟨i, hi⟩).cells ⊆ (st.knowledge.get ⟨j, hj⟩).cells →
        (Sentence.mk
              ((st.knowledge.get ⟨j, hj⟩).cells \ (st.knowledge.get ⟨i, hi⟩).cells)
              ((st.knowledge.get ⟨j, hj⟩).count - (st.knowledge.get ⟨i, hi⟩).count) ∈
            st.knowledge →
          subsetPass (f + 1) st chg i j = subsetPass f st chg i (j + 1)) ∧
        (Sentence.mk
              ((st.knowledge.get ⟨j, hj⟩).cells \ (st.knowledge.get ⟨i, hi⟩).cells)
              ((st.knowledge.get ⟨j, hj⟩).count - (st.knowledge.get ⟨i, hi⟩).count) ∉
            st.knowledge →
          (st.knowledge.get ⟨i, hi⟩).cells ≠ (st.knowledge.get ⟨j, hj⟩).cells →
          subsetPass (f + 1) st chg i j =
            subsetPass f
              { st with knowledge := st.knowledge ++
                  [Sentence.mk
                    ((st.knowledge.get ⟨j, hj⟩).cells \ (st.knowledge.get ⟨i, hi⟩).cells)
                    ((st.knowledge.get ⟨j, hj⟩).count - (st.knowledge.get ⟨i, hi⟩).count)] }
              true i (j + 1))) ∧
    sweep 99 chainState = Res.ok (chainMid, true, 88) ∧
    Sentence.mk {((0 : ℤ), (2 : ℤ))} 0 ∈ chainMid.knowledge ∧
    closureLoop 99 chainState = Res.ok chainFinal ∧
    ((0 : ℤ), (2 : ℤ)) ∈ chainFinal.safes := by
  constructor
  · intro f st chg i j hi hj hne h1 h2 hsub
    constructor
    · intro hmem
      conv_lhs => rw [subsetPass]
      simp only [dif_pos hi, dif_pos hj]
      rw [if_neg hne]
      rw [if_neg (show ¬((st.knowledge.get ⟨i, hi⟩).cells = ∅ ∨
            (st.knowledge.get ⟨j, hj⟩).cells = ∅) from by
          intro hor
          cases hor with
          | inl w => exact h1 w
          | inr w => exact h2 w)]
      rw [if_pos hsub]
      rw [if_pos hmem]
    · intro hnmem hcells
      have hcand : ¬(Sentence.mk
          ((st.knowledge.get ⟨j, hj⟩).cells \ (st.knowledge.get ⟨i, hi⟩).cells)
          ((st.knowledge.get ⟨j, hj⟩).count - (st.knowledge.get ⟨i, hi⟩).count)).cells = ∅ := by
        intro h0
        exact hcells (Finset.Subset.antisymm hsub (Finset.sdiff_eq_empty_iff_subset.mp h0))
      conv_lhs => rw [subsetPass]
      simp only [dif_pos hi, dif_pos hj]
      rw [if_neg hne]
      rw [if_neg (show ¬((st.knowledge.get ⟨i, hi⟩).cells = ∅ ∨
            (st.knowledge.get ⟨j, hj⟩).cells = ∅) from by
          intro hor
          cases hor with
          | inl w => exact h1 w
          | inr w => exact h2 w)]
      rw [if_pos hsub]
      rw [if_neg hnmem]
      rw [if_neg hcand]
  · exact ⟨by decide, by decide, by decide, by decide⟩

/-- Witness for the general part of `C2_subset_resolution_amended`: on
`subsetWitState` the pair (0, 1) derives `({(0,1)}, 0)`, already present
at index 2, so the step moves on without appending. -/
theorem C2_subset_resolution_witness :
    subsetPass 6 subsetWitState false 0 1 = subsetPass 5 subsetWitState false 0 2 :=
  ((C2_subset_resolution_amended.1 5 subsetWitState false 0 1
      (by decide) (by decide) (by decide) (by decide) (by decide) (by decide)).1
    (by decide))

/-! ### Step equations for the subset-resolution pass -/

/-- Exit: the outer loop is done. -/
theorem subsetPass_exit {f : ℕ} {st : Agent} {chg : Bool} {i j : ℕ}
    (hi : ¬ i < st.knowledge.length) :
    subsetPass f st chg i j = Res.ok (st, chg, f) := by
  rw [subsetPass]
  rw [dif_neg hi]

/-- Out of fuel inside the loop. -/
theorem subsetPass_zero {st : Agent} {chg : Bool} {i j : ℕ}
    (hi : i < st.knowledge.length) :
    subsetPass 0 st chg i j = Res.fuelOut := by
  rw [subsetPass]
  rw [dif_pos hi]

/-- `continue` on an equal pair (line 291). -/
theorem subsetPass_step_eq {f : ℕ} {st : Agent} {chg : Bool} {i j : ℕ}
    (hi : i < st.knowledge.length) (hj : j < st.knowledge.length)
    (heq : st.knowledge.get ⟨i, hi⟩ = st.knowledge.get ⟨j, hj⟩) :
    subsetPass (f + 1) st chg i j = subsetPass f st chg i (j + 1) := by
  rw [subsetPass]
  simp only [dif_pos hi, dif_pos hj]
  rw [if_pos heq]

/-- `continue` when either cell set is empty (line 293). -/
theorem subsetPass_step_empty {f : ℕ} {st : Agent} {chg : Bool} {i j : ℕ}
    (hi : i < st.knowledge.length) (hj : j < st.knowledge.length)
    (hne : st.knowledge.get ⟨i, hi⟩ ≠ st.knowledge.get ⟨j, hj⟩)
    (hor : (st.knowledge.get ⟨i, hi⟩).cells = ∅ ∨ (st.knowledge.get ⟨j, hj⟩).cells = ∅) :
    subsetPass (f + 1) st chg i j = subsetPass f st chg i (j + 1) := by
  rw [subsetPass]
  simp only [dif_pos hi, dif_pos hj]
  rw [if_neg hne, if_pos hor]

/-- Move on when the first cell set is not a subset of the second. -/
theorem subsetPass_step_nosub {f : ℕ} {st : Agent} {chg : Bool} {i j : ℕ}
    (hi : i < st.knowledge.length) (hj : j < st.knowledge.length)
    (hne : st.knowledge.get ⟨i, hi⟩ ≠ st.knowledge.get ⟨j, hj⟩)
    (hor : ¬((st.knowledge.get ⟨i, hi⟩).cells = ∅ ∨ (st.knowledge.get ⟨j, hj⟩).cells = ∅))
    (hsub : ¬ (st.knowledge.get ⟨i, hi⟩).cells ⊆ (st.knowledge.get ⟨j, hj⟩).cells) :
    subsetPass (f + 1) st chg i j = subsetPass f st chg i (j + 1) := by
  rw [subsetPass]
  simp only [dif_pos hi, dif_pos hj]
  rw [if_neg hne, if_neg hor, if_neg hsub]

/-- Move on when the candidate is already present by value (line 306). -/
theorem subsetPass_step_mem {f : ℕ} {st : Agent} {chg : Bool} {i j : ℕ}
    (hi : i < st.knowledge.length) (hj : j < st.knowledge.length)
    (hne : st.knowledge.get ⟨i, hi⟩ ≠ st.knowledge.get ⟨j, hj⟩)
    (hor : ¬((st.knowledge.get ⟨i, hi⟩).cells = ∅ ∨ (st.knowledge.get ⟨j, hj⟩).cells = ∅))
    (hsub : (st.knowledge.get ⟨i, hi⟩).cells ⊆ (st.knowledge.get ⟨j, hj⟩).cells)
    (hmem : Sentence.mk
        ((st.knowledge.get ⟨j, hj⟩).cells \ (st.knowledge.get ⟨i, hi⟩).cells)
        ((st.knowledge.get ⟨j, hj⟩).count - (st.knowledge.get ⟨i, hi⟩).count) ∈ st.knowledge) :
    subsetPass (f + 1) st chg i j = subsetPass f st chg i (j + 1) := by
  rw [subsetPass]
  simp only [dif_pos hi, dif_pos hj]
  rw [if_neg hne, if_neg hor, if_pos hsub, if_pos hmem]

/-- The line-307 assertion fires: new empty-celled candidate. -/
theorem subsetPass_step_assert {f : ℕ} {st : Agent} {chg : Bool} {i j : ℕ}
    (hi : i < st.knowledge.length) (hj : j < st.knowledge.length)
    (hne : st.knowledge.get ⟨i, hi⟩ ≠ st.knowledge.get ⟨j, hj⟩)
    (hor : ¬((st.knowledge.get ⟨i, hi⟩).cells = ∅ ∨ (st.knowledge.get ⟨j, hj⟩).cells = ∅))
    (hsub : (st.knowledge.get ⟨i, hi⟩).cells ⊆ (st.knowledge.get ⟨j, hj⟩).cells)
    (hnmem : Sentence.mk
        ((st.knowledge.get ⟨j, hj⟩).cells \ (st.knowledge.get ⟨i, hi⟩).cells)
        ((st.knowledge.get ⟨j, hj⟩).count - (st.knowledge.get ⟨i, hi⟩).count) ∉ st.knowledge)
    (hcemp : (st.knowledge.get ⟨j, hj⟩).cells \ (st.knowledge.get ⟨i, hi⟩).cells = ∅) :
    subsetPass (f + 1) st chg i j = Res.assertFail := by
  rw [subsetPass]
  simp only [dif_pos hi, dif_pos hj]
  rw [if_neg hne, if_neg hor, if_pos hsub, if_neg hnmem, if_pos hcemp]

/-- Append a fresh non-empty candidate (line 309). -/
theorem subsetPass_step_append {f : ℕ} {st : Agent} {chg : Bool} {i j : ℕ}
    (hi : i < st.knowledge.length) (hj : j < st.knowledge.length)
    (hne : st.knowledge.get ⟨i, hi⟩ ≠ st.knowledge.get ⟨j, hj⟩)
    (hor : ¬((st.knowledge.get ⟨i, hi⟩).cells = ∅ ∨ (st.knowledge.get ⟨j, hj⟩).cells = ∅))
    (hsub : (st.knowledge.get ⟨i, hi⟩).cells ⊆ (st.knowledge.get ⟨j, hj⟩).cells)
    (hnmem : Sentence.mk
        ((st.knowledge.get ⟨j, hj⟩).cells \ (st.knowledge.get ⟨i, hi⟩).cells)
        ((st.knowledge.get ⟨j, hj⟩).count - (st.knowledge.get ⟨i, hi⟩).count) ∉ st.knowledge)
    (hcne : ¬ (st.knowledge.get ⟨j, hj⟩).cells \ (st.knowledge.get ⟨i, hi⟩).cells = ∅) :
    subsetPass (f + 1) st chg i j =
      subsetPass f
        { st with knowledge := st.knowledge ++
            [Sentence.mk
              ((st.knowledge.get ⟨j, hj⟩).cells \ (st.knowledge.get ⟨i, hi⟩).cells)
              ((st.knowledge.get ⟨j, hj⟩).count - (st.knowledge.get ⟨i, hi⟩).count)] }
        true i (j + 1) := by
  rw [subsetPass]
  simp only [dif_pos hi, dif_pos hj]
  rw [if_neg hne, if_neg hor, if_pos hsub, if_neg hnmem, if_neg hcne]

/-- The inner loop is done: advance the outer index. -/
theorem subsetPass_step_inext {f : ℕ} {st : Agent} {chg : Bool} {i j : ℕ}
    (hi : i < st.knowledge.length) (hj : ¬ j < st.knowledge.length) :
    subsetPass (f + 1) st chg i j = subsetPass f st chg (i + 1) 0 := by
  rw [subsetPass]
  simp only [dif_pos hi, dif_neg hj]

/-- More fuel cannot turn an assertion failure of the subset pass into
anything else: the checks are fuel-independent. -/
theorem subsetPass_assert_mono :
    ∀ (f : ℕ) (st : Agent) (chg : Bool) (i j : ℕ),
      subsetPass f st chg i j = Res.assertFail →
      subsetPass (f + 1) st chg i j = Res.assertFail := by
  intro f st chg i j
  induction f, st, chg, i, j using subsetPass.induct with
  | case1 st chg i j hi =>
    intro h
    rw [subsetPass_zero hi] at h
    exact Res.noConfusion h
  | case2 st chg i j hi f hj s1 s2 heq ih =>
    intro h
    rw [subsetPass_step_eq hi hj heq] at h
    rw [subsetPass_step_eq hi hj heq]
    exact ih h
  | case3 st chg i j hi f hj s1 s2 hne hor ih =>
    intro h
    rw [subsetPass_step_empty hi hj hne hor] at h
    rw [subsetPass_step_empty hi hj hne hor]
    exact ih h
  | case4 st chg i j hi f hj s1 s2 hne hor hsub cand hmem ih =>
    intro h
    rw [subsetPass_step_mem hi hj hne hor hsub hmem] at h
    rw [subsetPass_step_mem hi hj hne hor hsub hmem]
    exact ih h
  | case5 st chg i j hi f hj s1 s2 hne hor hsub cand hnmem hcemp =>
    intro h
    exact subsetPass_step_assert hi hj hne hor hsub hnmem hcemp
  | case6 st chg i j hi f hj s1 s2 hne hor hsub cand hnmem hcne ih =>
    intro h
    rw [subsetPass_step_append hi hj hne hor hsub hnmem hcne] at h
    rw [subsetPass_step_append hi hj hne hor hsub hnmem hcne]
    exact ih h
  | case7 st chg i j hi f hj s1 s2 hne hor hsub ih =>
    intro h
    rw [subsetPass_step_nosub hi hj hne hor hsub] at h
    rw [subsetPass_step_nosub hi hj hne hor hsub]
    exact ih h
  | case8 st chg i j hi f hj ih =>
    intro h
    rw [subsetPass_step_inext hi hj] at h
    rw [subsetPass_step_inext hi hj]
    exact ih h
  | case9 t st chg i j hi =>
    intro h
    rw [subsetPass_exit hi] at h
    exact Res.noConfusion h

/-- More fuel preserves a normal return of the subset pass, returning one
more unit of leftover fuel. -/
theorem subsetPass_ok_mono :
    ∀ (f : ℕ) (st : Agent) (chg : Bool) (i j : ℕ),
      ∀ (st2 : Agent) (chg2 : Bool) (rem : ℕ),
        subsetPass f st chg i j = Res.ok (st2, chg2, rem) →
        subsetPass (f + 1) st chg i j = Res.ok (st2, chg2, rem + 1) := by
  intro f st chg i j
  induction f, st, chg, i, j using subsetPass.induct with
  | case1 st chg i j hi =>
    intro st2 chg2 rem h
    rw [subsetPass_zero hi] at h
    exact Res.noConfusion h
  | case2 st chg i j hi f hj s1 s2 heq ih =>
    intro st2 chg2 rem h
    rw [subsetPass_step_eq hi hj heq] at h
    rw [subsetPass_step_eq hi hj heq]
    exact ih st2 chg2 rem h
  | case3 st chg i j hi f hj s1 s2 hne hor ih =>
    intro st2 chg2 rem h
    rw [subsetPass_step_empty hi hj hne hor] at h
    rw [subsetPass_step_empty hi hj hne hor]
    exact ih st2 chg2 rem h
  | case4 st chg i j hi f hj s1 s2 hne hor hsub cand hmem ih =>
    intro st2 chg2 rem h
    rw [subsetPass_step_mem hi hj hne hor hsub hmem] at h
    rw [subsetPass_step_mem hi hj hne hor hsub hmem]
    exact ih st2 chg2 rem h
  | case5 st chg i j hi f hj s1 s2 hne hor hsub cand hnmem hcemp =>
    intro st2 chg2 rem h
    rw [subsetPass_step_assert hi hj hne hor hsub hnmem hcemp] at h
    exact Res.noConfusion h
  | case6 st chg i j hi f hj s1 s2 hne hor hsub cand hnmem hcne ih =>
    intro st2 chg2 rem h
    rw [subsetPass_step_append hi hj hne hor hsub hnmem hcne] at h
    rw [subsetPass_step_append hi hj hne hor hsub hnmem hcne]
    exact ih st2 chg2 rem h
  | case7 st chg i j hi f hj s1 s2 hne hor hsub ih =>
    intro st2 chg2 rem h
    rw [subsetPass_step_nosub hi hj hne hor hsub] at h
    rw [subsetPass_step_nosub hi hj hne hor hsub]
    exact ih st2 chg2 rem h
  | case8 st chg i j hi f hj ih =>
    intro st2 chg2 rem h
    rw [subsetPass_step_inext hi hj] at h
    rw [subsetPass_step_inext hi hj]
    exact ih st2 chg2 rem h
  | case9 t st chg i j hi =>
    intro st2 chg2 rem h
    rw [subsetPass_exit hi] at h
    simp only [Res.ok.injEq, Prod.mk.injEq] at h
    obtain ⟨h1, h2, h3⟩ := h
    subst h1
    subst h2
    subst h3
    rw [subsetPass_exit hi]

/-! ### Step equations for `sweep` and `closureLoop` -/

/-- Unfold `sweep` once the deduction pass's result is known. -/
theorem sweep_eq_of_ded_ok {f : ℕ} {st st1 : Agent} {chg1 : Bool}
    (hd : deduction st = Res.ok (st1, chg1)) :
    sweep f st =
      match subsetPass f st1 chg1 0 0 with
      | Res.ok (st3, chg3, f3) => Res.ok (removeEmpties st3, chg3, f3)
      | Res.assertFail => Res.assertFail
      | Res.fuelOut => Res.fuelOut := by
  unfold sweep
  rw [hd]

/-- A deduction-pass assertion failure aborts the sweep. -/
theorem sweep_eq_of_ded_assert {f : ℕ} {st : Agent}
    (hd : deduction st = Res.assertFail) : sweep f st = Res.assertFail := by
  unfold sweep
  rw [hd]

/-- More fuel preserves a normal sweep. -/
theorem sweep_ok_mono {f : ℕ} {st st2 : Agent} {chg2 : Bool} {rem : ℕ}
    (h : sweep f st = Res.ok (st2, chg2, rem)) :
    sweep (f + 1) st = Res.ok (st2, chg2, rem + 1) := by
  unfold sweep at h ⊢
  split at h
  next st1 chg1 hd =>
    split at h
    next st3 chg3 f3 hsp =>
      rw [subsetPass_ok_mono f st1 chg1 0 0 st3 chg3 f3 hsp]
      simp only [Res.ok.injEq, Prod.mk.injEq] at h ⊢
      exact ⟨h.1, h.2.1, by omega⟩
    next hsp => exact Res.noConfusion h
    next hsp => exact Res.noConfusion h
  next hd => exact Res.noConfusion h
  next hd => exact Res.noConfusion h

/-- More fuel cannot turn a sweep's assertion failure into anything
else. -/
theorem sweep_assert_mono {f : ℕ} {st : Agent}
    (h : sweep f st = Res.assertFail) : sweep (f + 1) st = Res.assertFail := by
  unfold sweep at h ⊢
  split at h
  next st1 chg1 hd =>
    split at h
    next st3 chg3 f3 hsp => exact Res.noConfusion h
    next hsp => rw [subsetPass_assert_mono f st1 chg1 0 0 hsp]
    next hsp => exact Res.noConfusion h
  next hd => rfl
  next hd => exact Res.noConfusion h

/-- Unfold `closureLoop` once the sweep's normal result is known. -/
theorem closureLoop_eq_of_sweep_ok {f : ℕ} {st st1 : Agent} {chg : Bool} {f1 : ℕ}
    (hs : sweep f st = Res.ok (st1, chg, f1)) :
    closureLoop (f + 1) st = if chg then closureLoop f st1 else Res.ok st1 := by
  conv_lhs => unfold closureLoop
  rw [hs]

/-- A sweep assertion failure aborts the closure loop. -/
theorem closureLoop_eq_of_sweep_assert {f : ℕ} {st : Agent}
    (hs : sweep f st = Res.assertFail) :
    closureLoop (f + 1) st = Res.assertFail := by
  unfold closureLoop
  rw [hs]

/-- A sweep fuel exhaustion propagates. -/
theorem closureLoop_eq_of_sweep_fuelOut {f : ℕ} {st : Agent}
    (hs : sweep f st = Res.fuelOut) :
    closureLoop (f + 1) st = Res.fuelOut := by
  unfold closureLoop
  rw [hs]

/-- More fuel preserves a normal return of the closure loop. -/
theorem closureLoop_ok_mono :
    ∀ (f : ℕ) (st stOut : Agent), closureLoop f st = Res.ok stOut →
      closureLoop (f + 1) st = Res.ok stOut := by
  intro f
  induction f with
  | zero => intro st stOut h; exact Res.noConfusion h
  | succ f ih =>
    intro st stOut h
    unfold closureLoop at h
    split at h
    next st1 chg f1 hs =>
      have hs2 := sweep_ok_mono hs
      rw [closureLoop_eq_of_sweep_ok hs2]
      cases chg with
      | true =>
        simp only [if_true] at h ⊢
        exact ih st1 stOut h
      | false =>
        simp only [Bool.false_eq_true, if_false] at h ⊢
        exact h
    next hs => exact Res.noConfusion h
    next hs => exact Res.noConfusion h

/-! ### Claim C5: counterexample -/

/-- The deduction pass is inert on `blockedMid` (all derivable safes are
already marked). -/
theorem deduction_blockedMid : deduction blockedMid = Res.ok (blockedMid, false) := by
  decide

/-- With any fuel at least 2, the subset pass on `blockedMid` reaches the
pair (0, 1) — equal cell sets, different counts, candidate `(∅, 1)` new —
and fails the line-307 assertion. -/
theorem subsetPass_blockedMid_assert :
    ∀ (g : ℕ), subsetPass (g + 2) blockedMid false 0 0 = Res.assertFail := by
  intro g
  induction g with
  | zero => decide
  | succ g ih => exact subsetPass_assert_mono (g + 2) blockedMid false 0 0 ih

/-- Hence every sweep on `blockedMid` with fuel at least 2 asserts. -/
theorem sweep_blockedMid_assert :
    ∀ (g : ℕ), sweep (g + 2) blockedMid = Res.assertFail := by
  intro g
  rw [sweep_eq_of_ded_ok deduction_blockedMid]
  rw [subsetPass_blockedMid_assert g]

/-- The closure loop on `blockedMid` never returns normally: with little
fuel it runs out, with enough fuel it raises the assertion failure. -/
theorem closureLoop_blockedMid_not_ok :
    ∀ (f : ℕ) (stOut : Agent), closureLoop f blockedMid ≠ Res.ok stOut := by
  intro f
  match f with
  | 0 => intro stOut h; exact Res.noConfusion h
  | 1 =>
    intro stOut h
    rw [closureLoop_eq_of_sweep_fuelOut (by decide : sweep 0 blockedMid = Res.fuelOut)] at h
    exact Res.noConfusion h
  | 2 =>
    intro stOut h
    rw [closureLoop_eq_of_sweep_fuelOut (by decide : sweep 1 blockedMid = Res.fuelOut)] at h
    exact Res.noConfusion h
  | (g + 3) =>
    intro stOut h
    rw [closureLoop_eq_of_sweep_assert (sweep_blockedMid_assert g)] at h
    exact Res.noConfusion h

/-- On `blockedState`, revealing `(1, 1)` leads exactly to the closure
loop on `blockedMid` (the neighbor scan finds no undetermined cell). -/
theorem add_knowledge_blockedState (f : ℕ) :
    add_knowledge f blockedState ((1 : ℤ), (1 : ℤ)) 0 = closureLoop f blockedMid := rfl

/-- Claim C5 (counterexample): on the agent state `blockedState` — whose
knowledge base holds the two contradictory sentences `{(0,0),(0,1)} = 0`
and `{(0,0),(0,1)} = 1` — the call `addKnowledge((1,1), 0)` never returns:
for every fuel the run either exhausts the model's fuel or (with fuel at
least 3) aborts with the line-307 assertion failure, so the claim that
`addKnowledge` always returns for every agent state is false. -/
theorem C5_always_returns_cex : ¬ Returns blockedState ((1 : ℤ), (1 : ℤ)) 0 := by
  rintro ⟨f, stOut, h⟩
  rw [add_knowledge_blockedState] at h
  exact closureLoop_blockedMid_not_ok f stOut h

/-! ### Truth of sentences under a mine assignment -/

/-- A true sentence has a non-negative count. -/
theorem true_count_nonneg {M : Finset Cell} {s : Sentence}
    (h : ((s.cells ∩ M).card : ℤ) = s.count) : 0 ≤ s.count := by
  rw [← h]
  exact Int.natCast_nonneg _

/-- A true sentence's count is at most its number of cells. -/
theorem true_count_le_card {M : Finset Cell} {s : Sentence}
    (h : ((s.cells ∩ M).card : ℤ) = s.count) : s.count ≤ (s.cells.card : ℤ) := by
  rw [← h]
  exact_mod_cast Finset.card_le_card (Finset.inter_subset_left)

/-- If a true sentence attains `|cells| = count`, all its cells are
mines. -/
theorem known_mines_subset_M {M : Finset Cell} {s : Sentence}
    (htrue : ((s.cells ∩ M).card : ℤ) = s.count)
    (hkm : (s.cells.card : ℤ) = s.count) : s.cells ⊆ M := by
  have hc : (s.cells ∩ M).card = s.cells.card := by
    exact_mod_cast htrue.trans hkm.symm
  have heq : s.cells ∩ M = s.cells :=
    Finset.eq_of_subset_of_card_le (Finset.inter_subset_left) (le_of_eq hc.symm)
  exact Finset.inter_eq_left.mp heq

/-- If a true sentence has count 0, none of its cells is a mine. -/
theorem known_safes_disjoint_M {M : Finset Cell} {s : Sentence}
    (htrue : ((s.cells ∩ M).card : ℤ) = s.count)
    (h0 : s.count = 0) : ∀ c ∈ s.cells, c ∉ M := by
  intro c hc hM
  have hcard : (s.cells ∩ M).card = 0 := by
    rw [h0] at htrue
    exact_mod_cast htrue
  have : s.cells ∩ M = ∅ := Finset.card_eq_zero.mp hcard
  have hmem : c ∈ s.cells ∩ M := Finset.mem_inter.mpr ⟨hc, hM⟩
  rw [this] at hmem
  exact absurd hmem (Finset.not_mem_empty c)

/-- `Sentence.mark_mine` on an actual mine preserves truth. -/
theorem mark_mine_true {M : Finset Cell} {s : Sentence} {c : Cell} (hc : c ∈ M)
    (h : ((s.cells ∩ M).card : ℤ) = s.count) :
    (((s.mark_mine c).cells ∩ M).card : ℤ) = (s.mark_mine c).count := by
  unfold Sentence.mark_mine
  by_cases hcs : c ∈ s.cells
  · rw [if_pos hcs]
    have h1 : s.cells.erase c ∩ M = (s.cells ∩ M).erase c := by
      ext x
      simp only [Finset.mem_inter, Finset.mem_erase]
      tauto
    have hmem : c ∈ s.cells ∩ M := Finset.mem_inter.mpr ⟨hcs, hc⟩
    have h2 : ((s.cells ∩ M).erase c).card = (s.cells ∩ M).card - 1 :=
      Finset.card_erase_of_mem hmem
    have h3 : 1 ≤ (s.cells ∩ M).card := Finset.card_pos.mpr ⟨c, hmem⟩
    show ((s.cells.erase c ∩ M).card : ℤ) = s.count - 1
    rw [h1, h2]
    omega
  · rw [if_neg hcs]
    exact h

/-- `Sentence.mark_safe` on a non-mine preserves truth. -/
theorem mark_safe_true {M : Finset Cell} {s : Sentence} {c : Cell} (hc : c ∉ M)
    (h : ((s.cells ∩ M).card : ℤ) = s.count) :
    (((s.mark_safe c).cells ∩ M).card : ℤ) = (s.mark_safe c).count := by
  unfold Sentence.mark_safe
  by_cases hcs : c ∈ s.cells
  · rw [if_pos hcs]
    have h1 : s.cells.erase c ∩ M = s.cells ∩ M := by
      ext x
      simp only [Finset.mem_inter, Finset.mem_erase]
      constructor
      · intro hx; exact ⟨hx.1.2, hx.2⟩
      · intro hx
        refine ⟨⟨?_, hx.1⟩, hx.2⟩
        intro hxc
        subst hxc
        exact hc hx.2
    show ((s.cells.erase c ∩ M).card : ℤ) = s.count
    rw [h1]
    exact h
  · rw [if_neg hcs]
    exact h

/-- Marked sentences have no more cells than before. -/
theorem mark_mine_cells_subset (s : Sentence) (c : Cell) :
    (s.mark_mine c).cells ⊆ s.cells := by
  unfold Sentence.mark_mine
  by_cases hcs : c ∈ s.cells
  · rw [if_pos hcs]; exact Finset.erase_subset c s.cells
  · rw [if_neg hcs]

/-- Marked sentences have no more cells than before. -/
theorem mark_safe_cells_subset (s : Sentence) (c : Cell) :
    (s.mark_safe c).cells ⊆ s.cells := by
  unfold Sentence.mark_safe
  by_cases hcs : c ∈ s.cells
  · rw [if_pos hcs]; exact Finset.erase_subset c s.cells
  · rw [if_neg hcs]

/-! ### The invariant through agent-level marking -/

/-- `Agent.mark_mine` on an actual mine preserves the invariant. -/
theorem agent_mark_mine_inv {M W : Finset Cell} {st : Agent} {c : Cell}
    (hc : c ∈ M) (hInv : KBInv M W st) : KBInv M W (st.mark_mine c) := by
  intro s hs
  unfold Agent.mark_mine at hs
  simp only [List.mem_map] at hs
  obtain ⟨s0, hs0, rfl⟩ := hs
  obtain ⟨ht, hw⟩ := hInv s0 hs0
  exact ⟨mark_mine_true hc ht, (mark_mine_cells_subset s0 c).trans hw⟩

/-- `Agent.mark_safe` on a non-mine preserves the invariant. -/
theorem agent_mark_safe_inv {M W : Finset Cell} {st : Agent} {c : Cell}
    (hc : c ∉ M) (hInv : KBInv M W st) : KBInv M W (st.mark_safe c) := by
  intro s hs
  unfold Agent.mark_safe at hs
  simp only [List.mem_map] at hs
  obtain ⟨s0, hs0, rfl⟩ := hs
  obtain ⟨ht, hw⟩ := hInv s0 hs0
  exact ⟨mark_safe_true hc ht, (mark_safe_cells_subset s0 c).trans hw⟩

/-- Marking a fresh mine inside `W` strictly shrinks the mark measure. -/
theorem markMeasure_mark_mine_lt {W : Finset Cell} {st : Agent} {c : Cell}
    (hcW : c ∈ W) (hcm : c ∉ st.mines) :
    markMeasure W (st.mark_mine c) < markMeasure W st := by
  unfold markMeasure Agent.mark_mine
  have h1 : W \ insert c st.mines = (W \ st.mines).erase c := by
    ext x
    simp only [Finset.mem_sdiff, Finset.mem_erase, Finset.mem_insert]
    tauto
  have hmem : c ∈ W \ st.mines := Finset.mem_sdiff.mpr ⟨hcW, hcm⟩
  have h2 : ((W \ st.mines).erase c).card = (W \ st.mines).card - 1 :=
    Finset.card_erase_of_mem hmem
  have h3 : 1 ≤ (W \ st.mines).card := Finset.card_pos.mpr ⟨c, hmem⟩
  simp only []
  rw [h1, h2]
  omega

/-- Marking a fresh safe cell inside `W` strictly shrinks the measure. -/
theorem markMeasure_mark_safe_lt {W : Finset Cell} {st : Agent} {c : Cell}
    (hcW : c ∈ W) (hcs : c ∉ st.safes) :
    markMeasure W (st.mark_safe c) < markMeasure W st := by
  unfold markMeasure Agent.mark_safe
  have h1 : W \ insert c st.safes = (W \ st.safes).erase c := by
    ext x
    simp only [Finset.mem_sdiff, Finset.mem_erase, Finset.mem_insert]
    tauto
  have hmem : c ∈ W \ st.safes := Finset.mem_sdiff.mpr ⟨hcW, hcs⟩
  have h2 : ((W \ st.safes).erase c).card = (W \ st.safes).card - 1 :=
    Finset.card_erase_of_mem hmem
  have h3 : 1 ≤ (W \ st.safes).card := Finset.card_pos.mpr ⟨c, hmem⟩
  simp only []
  rw [h1, h2]
  omega

/-! ### The sentence-value universe -/

/-- Characterization of membership in the value universe `UB W`. -/
theorem mem_UB {W : Finset Cell} {s : Sentence} :
    s ∈ UB W ↔ s.cells ⊆ W ∧ 0 ≤ s.count ∧ s.count ≤ (s.cells.card : ℤ) := by
  unfold UB
  simp only [Finset.mem_biUnion, Finset.mem_powerset, Finset.mem_image, Finset.mem_range]
  constructor
  · rintro ⟨V, hV, c, hc, rfl⟩
    refine ⟨hV, Int.natCast_nonneg c, ?_⟩
    show (c : ℤ) ≤ ((V.card : ℕ) : ℤ)
    exact_mod_cast Nat.lt_succ_iff.mp hc
  · rintro ⟨hW, h0, hle⟩
    refine ⟨s.cells, hW, s.count.toNat, ?_, ?_⟩
    · rw [Nat.lt_succ_iff]
      exact_mod_cast (Int.toNat_le.mpr hle)
    · cases s with
      | mk cs n =>
        simp only []
        rw [Int.toNat_of_nonneg h0]

/-- Characterization of membership in `neVals`. -/
theorem mem_neVals {st : Agent} {s : Sentence} :
    s ∈ neVals st ↔ s ∈ st.knowledge ∧ s.cells ≠ ∅ := by
  unfold neVals
  simp only [List.mem_toFinset, List.mem_filter, decide_eq_true_eq]

/-- Under the invariant the non-empty sentence values lie in `UB W`. -/
theorem neVals_subset_UB {M W : Finset Cell} {st : Agent}
    (hInv : KBInv M W st) : neVals st ⊆ UB W := by
  intro s hs
  obtain ⟨hmem, _⟩ := mem_neVals.mp hs
  obtain ⟨ht, hw⟩ := hInv s hmem
  exact mem_UB.mpr ⟨hw, true_count_nonneg ht, true_count_le_card ht⟩

/-- Marking a list of known mines preserves the invariant and either
leaves the state untouched or strictly shrinks the mark measure while
setting `changed`. -/
theorem markMinesLoop_spec {M W : Finset Cell} :
    ∀ (cs : List Cell) (st : Agent) (chg : Bool),
      KBInv M W st → (∀ c ∈ cs, c ∈ M ∧ c ∈ W) →
      ∃ st2 chg2, markMinesLoop st chg cs = (st2, chg2) ∧ KBInv M W st2 ∧
        ((st2 = st ∧ chg2 = chg) ∨
          (chg2 = true ∧ markMeasure W st2 < markMeasure W st)) := by
  intro cs
  induction cs with
  | nil => intro st chg hInv hcs; exact ⟨st, chg, rfl, hInv, Or.inl ⟨rfl, rfl⟩⟩
  | cons c cs ih =>
    intro st chg hInv hcs
    by_cases hcm : c ∈ st.mines
    · obtain ⟨st2, chg2, heq, hI, hd⟩ :=
        ih st chg hInv (fun x hx => hcs x (List.mem_cons_of_mem c hx))
      refine ⟨st2, chg2, ?_, hI, hd⟩
      simp only [markMinesLoop, if_pos hcm]
      exact heq
    · obtain ⟨hcM, hcW⟩ := hcs c (List.mem_cons_self c cs)
      have hI1 : KBInv M W (st.mark_mine c) := agent_mark_mine_inv hcM hInv
      have hm1 : markMeasure W (st.mark_mine c) < markMeasure W st :=
        markMeasure_mark_mine_lt hcW hcm
      obtain ⟨st2, chg2, heq, hI, hd⟩ :=
        ih (st.mark_mine c) true hI1 (fun x hx => hcs x (List.mem_cons_of_mem c hx))
      refine ⟨st2, chg2, ?_, hI, Or.inr ?_⟩
      · simp only [markMinesLoop, if_neg hcm]
        exact heq
      · cases hd with
        | inl h => exact ⟨h.2, by rw [h.1]; exact hm1⟩
        | inr h => exact ⟨h.1, lt_trans h.2 hm1⟩

/-- Symmetric statement for marking known safe cells. -/
theorem markSafesLoop_spec {M W : Finset Cell} :
    ∀ (cs : List Cell) (st : Agent) (chg : Bool),
      KBInv M W st → (∀ c ∈ cs, c ∉ M ∧ c ∈ W) →
      ∃ st2 chg2, markSafesLoop st chg cs = (st2, chg2) ∧ KBInv M W st2 ∧
        ((st2 = st ∧ chg2 = chg) ∨
          (chg2 = true ∧ markMeasure W st2 < markMeasure W st)) := by
  intro cs
  induction cs with
  | nil => intro st chg hInv hcs; exact ⟨st, chg, rfl, hInv, Or.inl ⟨rfl, rfl⟩⟩
  | cons c cs ih =>
    intro st chg hInv hcs
    by_cases hcm : c ∈ st.safes
    · obtain ⟨st2, chg2, heq, hI, hd⟩ :=
        ih st chg hInv (fun x hx => hcs x (List.mem_cons_of_mem c hx))
      refine ⟨st2, chg2, ?_, hI, hd⟩
      simp only [markSafesLoop, if_pos hcm]
      exact heq
    · obtain ⟨hcM, hcW⟩ := hcs c (List.mem_cons_self c cs)
      have hI1 : KBInv M W (st.mark_safe c) := agent_mark_safe_inv hcM hInv
      have hm1 : markMeasure W (st.mark_safe c) < markMeasure W st :=
        markMeasure_mark_safe_lt hcW hcm
      obtain ⟨st2, chg2, heq, hI, hd⟩ :=
        ih (st.mark_safe c) true hI1 (fun x hx => hcs x (List.mem_cons_of_mem c hx))
      refine ⟨st2, chg2, ?_, hI, Or.inr ?_⟩
      · simp only [markSafesLoop, if_neg hcm]
        exact heq
      · cases hd with
        | inl h => exact ⟨h.2, by rw [h.1]; exact hm1⟩
        | inr h => exact ⟨h.1, lt_trans h.2 hm1⟩

/-- Processing one sentence of the knowledge base never fails under the
invariant, preserves it, and either leaves the state untouched or shrinks
the mark measure. -/
theorem processSentence_spec {M W : Finset Cell} {st : Agent} {chg : Bool}
    {s : Sentence} (hInv : KBInv M W st) (hs : s ∈ st.knowledge) :
    ∃ st2 chg2, processSentence st chg s = Res.ok (st2, chg2) ∧ KBInv M W st2 ∧
      ((st2 = st ∧ chg2 = chg) ∨
        (chg2 = true ∧ markMeasure W st2 < markMeasure W st)) := by
  obtain ⟨hT, hW⟩ := hInv s hs
  by_cases hemp : s.cells = ∅
  · exact ⟨st, chg, by simp only [processSentence, if_pos hemp], hInv, Or.inl ⟨rfl, rfl⟩⟩
  · by_cases hkm : (s.cells.card : ℤ) = s.count
    · have hkm2 : s.known_mines = some s.cells := by
        unfold Sentence.known_mines
        rw [if_pos hkm]
      have hc0 : s.count ≠ 0 := by
        have hpos : 0 < s.cells.card :=
          Finset.card_pos.mpr (Finset.nonempty_iff_ne_empty.mpr hemp)
        omega
      have hks : s.known_safes = none := by
        unfold Sentence.known_safes
        rw [if_neg hc0]
      have hsubM : s.cells ⊆ M := known_mines_subset_M hT hkm
      obtain ⟨st2, chg2, heqm, hI2, hd2⟩ :=
        markMinesLoop_spec (cellList s.cells) st chg hInv
          (fun c hc => ⟨hsubM (mem_cellList.mp hc), hW (mem_cellList.mp hc)⟩)
      refine ⟨st2, chg2, ?_, hI2, hd2⟩
      simp only [processSentence, if_neg hemp, hkm2, hks, heqm]
    · have hkm2 : s.known_mines = none := by
        unfold Sentence.known_mines
        rw [if_neg hkm]
      by_cases h0 : s.count = 0
      · have hks : s.known_safes = some s.cells := by
          unfold Sentence.known_safes
          rw [if_pos h0]
        have hdisj := known_safes_disjoint_M hT h0
        obtain ⟨st2, chg2, heqm, hI2, hd2⟩ :=
          markSafesLoop_spec (cellList s.cells) st chg hInv
            (fun c hc => ⟨hdisj c (mem_cellList.mp hc), hW (mem_cellList.mp hc)⟩)
        refine ⟨st2, chg2, ?_, hI2, hd2⟩
        simp only [processSentence, if_neg hemp, hkm2, hks, heqm]
      · have hks : s.known_safes = none := by
          unfold Sentence.known_safes
          rw [if_neg h0]
        exact ⟨st, chg, by simp only [processSentence, if_neg hemp, hkm2, hks], hInv,
          Or.inl ⟨rfl, rfl⟩⟩

/-- The deduction loop never fails under the invariant, preserves it, and
either leaves the state untouched or shrinks the mark measure. -/
theorem dedLoop_spec {M W : Finset Cell} :
    ∀ (n k : ℕ) (st : Agent) (chg : Bool), KBInv M W st →
      ∃ st2 chg2, dedLoop st chg k n = Res.ok (st2, chg2) ∧ KBInv M W st2 ∧
        ((st2 = st ∧ chg2 = chg) ∨
          (chg2 = true ∧ markMeasure W st2 < markMeasure W st)) := by
  intro n
  induction n with
  | zero => intro k st chg hInv; exact ⟨st, chg, rfl, hInv, Or.inl ⟨rfl, rfl⟩⟩
  | succ n ih =>
    intro k st chg hInv
    cases hg : st.knowledge.get? k with
    | none =>
      refine ⟨st, chg, ?_, hInv, Or.inl ⟨rfl, rfl⟩⟩
      simp only [dedLoop, hg]
    | some s =>
      have hmem : s ∈ st.knowledge := List.get?_mem hg
      obtain ⟨st1, chg1, hps, hI1, hd1⟩ := processSentence_spec hInv hmem
      obtain ⟨st2, chg2, hdl, hI2, hd2⟩ := ih (k + 1) st1 chg1 hI1
      refine ⟨st2, chg2, ?_, hI2, ?_⟩
      · simp only [dedLoop, hg]
        rw [hps]
        exact hdl
      · cases hd1 with
        | inl h1 =>
          cases hd2 with
          | inl h2 => exact Or.inl ⟨h2.1.trans h1.1, h2.2.trans h1.2⟩
          | inr h2 => exact Or.inr ⟨h2.1, by rw [← h1.1]; exact h2.2⟩
        | inr h1 =>
          cases hd2 with
          | inl h2 => exact Or.inr ⟨h2.2.trans h1.1, by rw [h2.1]; exact h1.2⟩
          | inr h2 => exact Or.inr ⟨h2.1, lt_trans h2.2 h1.2⟩

/-- The deduction pass (line 260-287 loop) under the invariant. -/
theorem deduction_spec {M W : Finset Cell} {st : Agent} (hInv : KBInv M W st) :
    ∃ st1 chg1, deduction st = Res.ok (st1, chg1) ∧ KBInv M W st1 ∧
      ((st1 = st ∧ chg1 = false) ∨
        (chg1 = true ∧ markMeasure W st1 < markMeasure W st)) :=
  dedLoop_spec st.knowledge.length 0 st false hInv

/-- Two sentences with equal fields are equal. -/
theorem sentence_eq {s t : Sentence} (h1 : s.cells = t.cells)
    (h2 : s.count = t.count) : s = t := by
  cases s
  cases t
  rw [Sentence.mk.injEq]
  exact ⟨h1, h2⟩

/-- Soundness of subset resolution: the derived sentence is true whenever
its two parents are. -/
theorem derived_true {M : Finset Cell} {s1 s2 : Sentence}
    (h1 : ((s1.cells ∩ M).card : ℤ) = s1.count)
    (h2 : ((s2.cells ∩ M).card : ℤ) = s2.count)
    (hsub : s1.cells ⊆ s2.cells) :
    (((s2.cells \ s1.cells) ∩ M).card : ℤ) = s2.count - s1.count := by
  have hset : (s2.cells \ s1.cells) ∩ M = (s2.cells ∩ M) \ (s1.cells ∩ M) := by
    ext x
    simp only [Finset.mem_inter, Finset.mem_sdiff]
    tauto
  have hsub2 : s1.cells ∩ M ⊆ s2.cells ∩ M :=
    Finset.inter_subset_inter hsub (Finset.Subset.refl M)
  have hcard : ((s2.cells ∩ M) \ (s1.cells ∩ M)).card =
      (s2.cells ∩ M).card - (s1.cells ∩ M).card := Finset.card_sdiff hsub2
  have hle : (s1.cells ∩ M).card ≤ (s2.cells ∩ M).card := Finset.card_le_card hsub2
  rw [hset, hcard]
  omega

/-- Appending a sentence with non-empty cells inserts its value into
`neVals`. -/
theorem neVals_append {st : Agent} {cand : Sentence} (hc : cand.cells ≠ ∅) :
    neVals { st with knowledge := st.knowledge ++ [cand] } = insert cand (neVals st) := by
  ext x
  simp only [mem_neVals, Finset.mem_insert, List.mem_append, List.mem_singleton]
  constructor
  · rintro ⟨h1 | h1, h2⟩
    · exact Or.inr ⟨h1, h2⟩
    · exact Or.inl h1
  · rintro (h1 | ⟨h1, h2⟩)
    · subst h1
      exact ⟨Or.inr rfl, hc⟩
    · exact ⟨Or.inl h1, h2⟩

/-- The subset-resolution pass under the invariant: with fuel above the
step potential it returns normally (no assertion can fire: equal cell
sets force equal counts on true sentences, so the empty candidate is
never fresh), preserves the invariant and the marks, and only ever adds
new sentence values; the `changed` flag can only be set by a genuine
append. -/
theorem subsetPass_ok_of_inv {M W : Finset Cell} :
    ∀ (fuel : ℕ) (st : Agent) (chg : Bool) (i j : ℕ),
      KBInv M W st → phi W st i j < fuel →
      ∃ st2 chg2 rem, subsetPass fuel st chg i j = Res.ok (st2, chg2, rem) ∧
        KBInv M W st2 ∧ st2.mines = st.mines ∧ st2.safes = st.safes ∧
        neVals st ⊆ neVals st2 ∧
        (chg2 = true → chg = true ∨ (neVals st).card < (neVals st2).card) := by
  intro fuel
  induction fuel with
  | zero => intro st chg i j hInv hphi; exact absurd hphi (Nat.not_lt_zero _)
  | succ fuel ih =>
    intro st chg i j hInv hphi
    by_cases hi : i < st.knowledge.length
    case neg =>
      exact ⟨st, chg, fuel + 1, subsetPass_exit hi, hInv, rfl, rfl,
        Finset.Subset.refl _, fun hc => Or.inl hc⟩
    case pos =>
      have hlen_le : st.knowledge.length ≤ lenBound W st := Nat.le_add_right _ _
      by_cases hj : j < st.knowledge.length
      case neg =>
        have hphi2 : phi W st (i + 1) 0 < fuel := by
          have hiB : i < lenBound W st := lt_of_lt_of_le hi hlen_le
          unfold phi at hphi ⊢
          have hx : lenBound W st - i = (lenBound W st - (i + 1)) + 1 := by omega
          have hmul : (lenBound W st - i) * (lenBound W st + 1) =
              (lenBound W st - (i + 1)) * (lenBound W st + 1) + (lenBound W st + 1) := by
            rw [hx, Nat.add_mul, one_mul]
          omega
        obtain ⟨st2, chg2, rem, heq, hI, hm, hs, hsub, hchg⟩ :=
          ih st chg (i + 1) 0 hInv hphi2
        exact ⟨st2, chg2, rem, (subsetPass_step_inext hi hj).trans heq,
          hI, hm, hs, hsub, hchg⟩
      case pos =>
        have hjB : j < lenBound W st := lt_of_lt_of_le hj hlen_le
        have hphiJ : phi W st i (j + 1) < fuel := by
          unfold phi at hphi ⊢
          omega
        by_cases heq1 : st.knowledge.get ⟨i, hi⟩ = st.knowledge.get ⟨j, hj⟩
        case pos =>
          obtain ⟨st2, chg2, rem, heq, hI, hm, hs, hsub, hchg⟩ :=
            ih st chg i (j + 1) hInv hphiJ
          exact ⟨st2, chg2, rem, (subsetPass_step_eq hi hj heq1).trans heq,
            hI, hm, hs, hsub, hchg⟩
        case neg =>
          by_cases hor : (st.knowledge.get ⟨i, hi⟩).cells = ∅ ∨
              (st.knowledge.get ⟨j, hj⟩).cells = ∅
          case pos =>
            obtain ⟨st2, chg2, rem, heq, hI, hm, hs, hsub, hchg⟩ :=
              ih st chg i (j + 1) hInv hphiJ
            exact ⟨st2, chg2, rem, (subsetPass_step_empty hi hj heq1 hor).trans heq,
              hI, hm, hs, hsub, hchg⟩
          case neg =>
            by_cases hsb : (st.knowledge.get ⟨i, hi⟩).cells ⊆
                (st.knowledge.get ⟨j, hj⟩).cells
            case neg =>
              obtain ⟨st2, chg2, rem, heq, hI, hm, hs, hsub, hchg⟩ :=
                ih st chg i (j + 1) hInv hphiJ
              exact ⟨st2, chg2, rem, (subsetPass_step_nosub hi hj heq1 hor hsb).trans heq,
                hI, hm, hs, hsub, hchg⟩
            case pos =>
              by_cases hmem : Sentence.mk
                  ((st.knowledge.get ⟨j, hj⟩).cells \ (st.knowledge.get ⟨i, hi⟩).cells)
                  ((st.knowledge.get ⟨j, hj⟩).count - (st.knowledge.get ⟨i, hi⟩).count) ∈
                  st.knowledge
              case pos =>
                obtain ⟨st2, chg2, rem, heq, hI, hm, hs, hsub, hchg⟩ :=
                  ih st chg i (j + 1) hInv hphiJ
                exact ⟨st2, chg2, rem,
                  (subsetPass_step_mem hi hj heq1 hor hsb hmem).trans heq,
                  hI, hm, hs, hsub, hchg⟩
              case neg =>
                obtain ⟨hT1, hW1⟩ := hInv _ (List.get_mem st.knowledge i hi)
                obtain ⟨hT2, hW2⟩ := hInv _ (List.get_mem st.knowledge j hj)
                have hcne : ¬ (st.knowledge.get ⟨j, hj⟩).cells \
                    (st.knowledge.get ⟨i, hi⟩).cells = ∅ := by
                  intro h0
                  have hsub2 : (st.knowledge.get ⟨j, hj⟩).cells ⊆
                      (st.knowledge.get ⟨i, hi⟩).cells :=
                    Finset.sdiff_eq_empty_iff_subset.mp h0
                  have hcells : (st.knowledge.get ⟨i, hi⟩).cells =
                      (st.knowledge.get ⟨j, hj⟩).cells :=
                    Finset.Subset.antisymm hsb hsub2
                  have hcnt : (st.knowledge.get ⟨i, hi⟩).count =
                      (st.knowledge.get ⟨j, hj⟩).count := by
                    rw [← hT1, ← hT2, hcells]
                  exact heq1 (sentence_eq hcells hcnt)
                have hcand_true := derived_true hT1 hT2 hsb
                have hInv2 : KBInv M W { st with knowledge := st.knowledge ++
                    [Sentence.mk
                      ((st.knowledge.get ⟨j, hj⟩).cells \ (st.knowledge.get ⟨i, hi⟩).cells)
                      ((st.knowledge.get ⟨j, hj⟩).count - (st.knowledge.get ⟨i, hi⟩).count)] } := by
                  intro s hsmem
                  simp only [List.mem_append, List.mem_singleton] at hsmem
                  cases hsmem with
                  | inl h => exact hInv s h
                  | inr h =>
                    subst h
                    exact ⟨hcand_true, (Finset.sdiff_subset).trans hW2⟩
                have hnv : neVals { st with knowledge := st.knowledge ++
                    [Sentence.mk
                      ((st.knowledge.get ⟨j, hj⟩).cells \ (st.knowledge.get ⟨i, hi⟩).cells)
                      ((st.knowledge.get ⟨j, hj⟩).count - (st.knowledge.get ⟨i, hi⟩).count)] } =
                    insert (Sentence.mk
                      ((st.knowledge.get ⟨j, hj⟩).cells \ (st.knowledge.get ⟨i, hi⟩).cells)
                      ((st.knowledge.get ⟨j, hj⟩).count - (st.knowledge.get ⟨i, hi⟩).count))
                      (neVals st) :=
                  neVals_append hcne
                have hnotin : Sentence.mk
                    ((st.knowledge.get ⟨j, hj⟩).cells \ (st.knowledge.get ⟨i, hi⟩).cells)
                    ((st.knowledge.get ⟨j, hj⟩).count - (st.knowledge.get ⟨i, hi⟩).count) ∉
                    neVals st := fun h => hmem (mem_neVals.mp h).1
                have hcard2 : (neVals { st with knowledge := st.knowledge ++
                    [Sentence.mk
                      ((st.knowledge.get ⟨j, hj⟩).cells \ (st.knowledge.get ⟨i, hi⟩).cells)
                      ((st.knowledge.get ⟨j, hj⟩).count - (st.knowledge.get ⟨i, hi⟩).count)] }).card =
                    (neVals st).card + 1 := by
                  rw [hnv]
                  exact Finset.card_insert_of_not_mem hnotin
                have hle2 : (neVals { st with knowledge := st.knowledge ++
                    [Sentence.mk
                      ((st.knowledge.get ⟨j, hj⟩).cells \ (st.knowledge.get ⟨i, hi⟩).cells)
                      ((st.knowledge.get ⟨j, hj⟩).count - (st.knowledge.get ⟨i, hi⟩).count)] }).card ≤
                    (UB W).card :=
                  Finset.card_le_card (neVals_subset_UB hInv2)
                have hlenB : lenBound W { st with knowledge := st.knowledge ++
                    [Sentence.mk
                      ((st.knowledge.get ⟨j, hj⟩).cells \ (st.knowledge.get ⟨i, hi⟩).cells)
                      ((st.knowledge.get ⟨j, hj⟩).count - (st.knowledge.get ⟨i, hi⟩).count)] } =
                    lenBound W st := by
                  unfold lenBound
                  simp only [List.length_append, List.length_singleton]
                  omega
                have hphiA : phi W { st with knowledge := st.knowledge ++
                    [Sentence.mk
                      ((st.knowledge.get ⟨j, hj⟩).cells \ (st.knowledge.get ⟨i, hi⟩).cells)
                      ((st.knowledge.get ⟨j, hj⟩).count - (st.knowledge.get ⟨i, hi⟩).count)] }
                    i (j + 1) < fuel := by
                  unfold phi
                  rw [hlenB]
                  unfold phi at hphi
                  omega
                obtain ⟨st2, chg2, rem, heq, hI, hm, hs, hsubv, hchg⟩ :=
                  ih _ true i (j + 1) hInv2 hphiA
                refine ⟨st2, chg2, rem,
                  (subsetPass_step_append hi hj heq1 hor hsb hmem hcne).trans heq,
                  hI, hm, hs, ?_, ?_⟩
                · refine Finset.Subset.trans ?_ hsubv
                  rw [hnv]
                  exact Finset.subset_insert _ _
                · intro _
                  refine Or.inr ?_
                  have hmono : (neVals { st with knowledge := st.knowledge ++
                      [Sentence.mk
                        ((st.knowledge.get ⟨j, hj⟩).cells \ (st.knowledge.get ⟨i, hi⟩).cells)
                        ((st.knowledge.get ⟨j, hj⟩).count -
                          (st.knowledge.get ⟨i, hi⟩).count)] }).card ≤
                      (neVals st2).card :=
                    Finset.card_le_card hsubv
                  omega

/-- Removing empty zero-count sentences preserves the invariant. -/
theorem removeEmpties_inv {M W : Finset Cell} {st : Agent}
    (hInv : KBInv M W st) : KBInv M W (removeEmpties st) := by
  intro s hs
  unfold removeEmpties at hs
  simp only [List.mem_filter] at hs
  exact hInv s hs.1

/-- Removing empty zero-count sentences does not change the set of
non-empty sentence values: only sentences with empty cell sets can be
removed, and those are never in `neVals`. -/
theorem neVals_removeEmpties {st : Agent} :
    neVals (removeEmpties st) = neVals st := by
  ext s
  simp only [mem_neVals, removeEmpties, List.mem_filter, decide_eq_true_eq]
  constructor
  · rintro ⟨⟨h1, _⟩, h2⟩
    exact ⟨h1, h2⟩
  · rintro ⟨h1, h2⟩
    refine ⟨⟨h1, fun hcontra => ?_⟩, h2⟩
    exact h2 (congrArg Sentence.cells hcontra)

/-- A full sweep under the invariant: some fuel makes it return `ok`,
the invariant is preserved, and a set `changed` flag forces a strict
drop of the combined rank (a new mark shrinks the mark measure; a pure
append grows the set of sentence values, which is bounded by `UB W`). -/
theorem sweep_ok_of_inv {M W : Finset Cell} {st : Agent}
    (hInv : KBInv M W st) :
    ∃ f st2 chg2 rem, sweep f st = Res.ok (st2, chg2, rem) ∧ KBInv M W st2 ∧
      (chg2 = true → rank W st2 < rank W st) := by
  obtain ⟨st1, chg1, hd, hI1, hcase⟩ := deduction_spec hInv
  obtain ⟨st2, chg2, rem, hsp, hI2, hm, hs, hsubv, hchg⟩ :=
    subsetPass_ok_of_inv (phi W st1 0 0 + 1) st1 chg1 0 0 hI1 (Nat.lt_succ_self _)
  refine ⟨phi W st1 0 0 + 1, removeEmpties st2, chg2, rem, ?_, removeEmpties_inv hI2, ?_⟩
  · rw [sweep_eq_of_ded_ok hd, hsp]
  · intro hc2
    have hmmRE : markMeasure W (removeEmpties st2) = markMeasure W st2 := rfl
    have hmm21 : markMeasure W st2 = markMeasure W st1 := by
      unfold markMeasure
      rw [hm, hs]
    have hnvRE : neVals (removeEmpties st2) = neVals st2 := neVals_removeEmpties
    have hc2le : (neVals st2).card ≤ (UB W).card :=
      Finset.card_le_card (neVals_subset_UB hI2)
    have hc1le : (neVals st1).card ≤ (neVals st2).card := Finset.card_le_card hsubv
    unfold rank
    rw [hmmRE, hmm21, hnvRE]
    cases hcase with
    | inl h =>
      obtain ⟨hst1, hchg1⟩ := h
      cases hchg hc2 with
      | inl h1 => rw [hchg1] at h1; exact absurd h1 Bool.false_ne_true
      | inr h1 =>
        rw [hst1] at h1 ⊢
        omega
    | inr h =>
      obtain ⟨_, hmlt⟩ := h
      have hA : markMeasure W st1 * ((UB W).card + 1) + ((UB W).card + 1) ≤
          markMeasure W st * ((UB W).card + 1) := by
        have h1 : markMeasure W st1 + 1 ≤ markMeasure W st := hmlt
        have h2 : (markMeasure W st1 + 1) * ((UB W).card + 1) ≤
            markMeasure W st * ((UB W).card + 1) :=
          Nat.mul_le_mul_right _ h1
        rw [Nat.add_mul, one_mul] at h2
        exact h2
      omega

/-- Fuel weakening for a successful sweep, `≤` form. -/
theorem sweep_ok_mono_le {f g : ℕ} {st st2 : Agent} {chg2 : Bool} {rem : ℕ}
    (hfg : f ≤ g) (h : sweep f st = Res.ok (st2, chg2, rem)) :
    ∃ rem2, sweep g st = Res.ok (st2, chg2, rem2) := by
  obtain ⟨d, rfl⟩ := Nat.le.dest hfg
  clear hfg
  induction d with
  | zero => exact ⟨rem, h⟩
  | succ d ih =>
    obtain ⟨r2, h2⟩ := ih
    exact ⟨r2 + 1, sweep_ok_mono h2⟩

/-- Fuel weakening for a successful closure loop, `≤` form. -/
theorem closureLoop_ok_mono_le {f g : ℕ} {st stOut : Agent} (hfg : f ≤ g)
    (h : closureLoop f st = Res.ok stOut) : closureLoop g st = Res.ok stOut := by
  obtain ⟨d, rfl⟩ := Nat.le.dest hfg
  clear hfg
  induction d with
  | zero => exact h
  | succ d ih => exact closureLoop_ok_mono _ _ _ ih

/-- Termination of the `while changed` loop under the invariant, by strong
induction on the rank: each changed sweep strictly drops the rank, and an
unchanged sweep exits the loop. -/
theorem closureLoop_ok_of_inv {M W : Finset Cell} :
    ∀ (r : ℕ) (st : Agent), KBInv M W st → rank W st ≤ r →
      ∃ f stOut, closureLoop f st = Res.ok stOut := by
  intro r
  induction r with
  | zero =>
    intro st hInv hr
    obtain ⟨f, st2, chg2, rem, hsw, hI2, hrank⟩ := sweep_ok_of_inv hInv
    cases chg2 with
    | false =>
      refine ⟨f + 1, st2, ?_⟩
      rw [closureLoop_eq_of_sweep_ok hsw]
      simp only [Bool.false_eq_true, if_false]
    | true =>
      have := hrank rfl
      omega
  | succ r ih =>
    intro st hInv hr
    obtain ⟨f, st2, chg2, rem, hsw, hI2, hrank⟩ := sweep_ok_of_inv hInv
    cases chg2 with
    | false =>
      refine ⟨f + 1, st2, ?_⟩
      rw [closureLoop_eq_of_sweep_ok hsw]
      simp only [Bool.false_eq_true, if_false]
    | true =>
      have hlt := hrank rfl
      have hr2 : rank W st2 ≤ r := by omega
      obtain ⟨g, stOut, hg⟩ := ih st2 hI2 hr2
      refine ⟨max f g + 1, stOut, ?_⟩
      obtain ⟨rem2, hsw2⟩ := sweep_ok_mono_le (le_max_left f g) hsw
      rw [closureLoop_eq_of_sweep_ok hsw2]
      simp only [if_true]
      exact closureLoop_ok_mono_le (le_max_right f g) hg

/-- Every cell of every sentence of a knowledge base lies in the union of
its cell sets. -/
theorem cells_subset_kbCells {kb : List Sentence} {s : Sentence}
    (hs : s ∈ kb) : s.cells ⊆ kbCells kb := by
  induction kb with
  | nil => exact absurd hs (List.not_mem_nil s)
  | cons t kb ih =>
    cases hs with
    | head => exact Finset.subset_union_left
    | tail _ h =>
      exact (ih h).trans Finset.subset_union_right

/-- Claim C5 (amended): the literal claim — the `while changed` closure of
lines 251-317 terminates for every agent state — fails because on
contradictory knowledge the subset-resolution step can derive a fresh
empty-celled candidate and abort through the line-307 assertion, which is
exactly how the counterexample state fails (the deduction-pass asserts of
lines 270 and 280 are unreachable: both queries return a set only for
sentences with empty cell sets, which line 261 skips, and the
counterexample's deduction pass returns normally); the amended claim
proved here is the spec's
finiteness argument restricted to consistent states: whenever some mine
set `M` satisfies every sentence of the knowledge base, the closure loop
returns normally with some fuel bound, because each changed iteration
either marks a new cell or appends a sentence value new to the finite
universe over the base's cells. -/
theorem C5_closure_terminates_amended (st : Agent) (M : Finset Cell)
    (hSat : Sat M st.knowledge) :
    ∃ f stOut, closureLoop f st = Res.ok stOut := by
  have hInv : KBInv M (kbCells st.knowledge) st := by
    intro s hs
    exact ⟨hSat s hs, cells_subset_kbCells hs⟩
  exact closureLoop_ok_of_inv (rank (kbCells st.knowledge) st) st hInv (le_refl _)

/-- Witness for C5 (amended): the two-sentence state `satState` is
satisfied by the mine set `{(0,0)}`, so its closure loop terminates. -/
theorem C5_closure_terminates_witness :
    Sat {((0 : ℤ), (0 : ℤ))} satState.knowledge ∧
    ∃ f stOut, closureLoop f satState = Res.ok stOut :=
  ⟨by unfold Sat; decide, C5_closure_terminates_amended satState {((0 : ℤ), (0 : ℤ))}
    (by unfold Sat; decide)⟩
